import Mathlib

/-!
Shallow embedding of `src/main.py` (longest path in a weighted DAG given as a
dense adjacency matrix): Kahn topological sort, dynamic-programming relaxation
over the order, and reconstruction of one and of all optimal paths through a
predecessor multigraph.  Distances are modelled as `WithBot Int` (the Python
code uses `-inf` as the unreachable sentinel and exact integer weights), and
the Python list subscripts applied to the caller-supplied `origem`/`destino`
are modelled faithfully, including negative-index wrap-around and the
`IndexError` raised outside `[-len, len)`.
-/

namespace N1

/-- Error kinds surfaced by the program: `ValueError` for a cyclic graph
(`src/main.py` line 85), `IndexError` for an out-of-range list subscript. -/
inductive Err where
  | cycle : Err
  | index : Err
deriving DecidableEq

/-- Python list subscript resolution: an index in `[0, len)` is used as is,
an index in `[-len, 0)` wraps around to `len + i`, anything else raises. -/
def pyIdx (len : Nat) (i : Int) : Option Nat :=
  if 0 ≤ i ∧ i < (len : Int) then some i.toNat
  else if -(len : Int) ≤ i ∧ i < 0 then some (i + len).toNat
  else none

/-- Python list read `xs[i]`, `none` when the subscript raises `IndexError`. -/
def pyGet (xs : List α) (i : Int) : Option α :=
  (pyIdx xs.length i).bind (fun j => xs.get? j)

/-- Python list write `xs[i] = v`, `none` when the subscript raises. -/
def pySet (xs : List α) (i : Int) (v : α) : Option (List α) :=
  (pyIdx xs.length i).map (fun j => xs.set j v)

/-- Total read with a default, used where the surrounding control flow of the
program guarantees the subscript is in range. -/
def pyGetD (xs : List α) (d : α) (i : Int) : α :=
  (pyGet xs i).getD d

/-- Matrix entry `matriz[u][v]` (`0`, i.e. "no edge", when out of range). -/
def w (matriz : List (List Int)) (u v : Nat) : Int :=
  (matriz.getD u []).getD v 0

/-- The edge relation of the program: a nonzero adjacency-matrix entry
(`src/main.py` treats `0` as the absence of an edge). -/
def Edg (matriz : List (List Int)) (u v : Nat) : Prop :=
  w matriz u v ≠ 0

instance (matriz : List (List Int)) (u v : Nat) : Decidable (Edg matriz u v) :=
  inferInstanceAs (Decidable (w matriz u v ≠ 0))

/-- The matrix is a well-formed `n × n` adjacency matrix (the shape the I/O
layer `read_file` hands to the core). -/
def Square (n : Nat) (matriz : List (List Int)) : Prop :=
  matriz.length = n ∧ ∀ r ∈ matriz, r.length = n

instance (n : Nat) (matriz : List (List Int)) : Decidable (Square n matriz) :=
  inferInstanceAs (Decidable (matriz.length = n ∧ ∀ r ∈ matriz, r.length = n))

/-- `PathTo matriz s v p`: `p` is a directed path from `s` to `v` along
nonzero-weight matrix entries, listed in traversal order (a single vertex is
the trivial path from `s` to `s`). -/
inductive PathTo (matriz : List (List Int)) (s : Nat) : Nat → List Nat → Prop where
  | nil : PathTo matriz s s [s]
  | snoc {v u : Nat} {p : List Nat} :
      PathTo matriz s v p → w matriz v u ≠ 0 → PathTo matriz s u (p ++ [u])

/-- Sum of edge weights along a vertex list. -/
def pathWeight (matriz : List (List Int)) : List Nat → Int
  | [] => 0
  | [_] => 0
  | u :: v :: rest => w matriz u v + pathWeight matriz (v :: rest)

/-- The graph has a directed cycle: a nonzero-weight edge chain of at least
two vertices whose first and last vertices coincide. -/
def HasCycle (matriz : List (List Int)) : Prop :=
  ∃ p : List Nat, 2 ≤ p.length ∧ p.head? = p.getLast? ∧
    p.Chain' (fun u v => w matriz u v ≠ 0)

/-- The graph has no directed cycle. -/
def Acyclic (matriz : List (List Int)) : Prop :=
  ¬ HasCycle matriz

/-- In-degree accumulation over one matrix row starting at column `j`
(`src/main.py` lines 67–70, inner loop). -/
def countRow (j : Nat) (row : List Int) (g : List Int) : List Int :=
  match row with
  | [] => g
  | peso :: rest => countRow (j + 1) rest (if peso ≠ 0 then g.set j (g.getD j 0 + 1) else g)

/-- The in-degree vector `grau_entrada` (`src/main.py` lines 65–70). -/
def grauEntrada (n : Nat) (matriz : List (List Int)) : List Int :=
  (List.range n).foldl (fun g orig => countRow 0 (matriz.getD orig []) g) (List.replicate n 0)

/-- Row scan of one dequeued vertex: decrement each nonzero destination's
in-degree and enqueue it when it reaches zero (`src/main.py` lines 78–82). -/
def decRow (j : Nat) (row : List Int) (grau : List Int) (fila : List Nat) :
    List Int × List Nat :=
  match row with
  | [] => (grau, fila)
  | peso :: rest =>
    if peso ≠ 0 then
      let g := grau.set j (grau.getD j 0 - 1)
      let f := if g.getD j 0 = 0 then fila ++ [j] else fila
      decRow (j + 1) rest g f
    else decRow (j + 1) rest grau fila

/-- The Kahn work loop (`src/main.py` lines 75–82), fuel-indexed; the fuel
`n + 1` used below strictly dominates the number of iterations, since every
vertex is dequeued at most once. -/
def kahnLoop (matriz : List (List Int)) :
    Nat → List Int → List Nat → List Nat → List Nat
  | 0, _, _, ordem => ordem
  | fuel + 1, grau, fila, ordem =>
    match fila with
    | [] => ordem
    | orig :: rest =>
      let gf := decRow 0 (matriz.getD orig []) grau rest
      kahnLoop matriz fuel gf.1 gf.2 (ordem ++ [orig])

/-- `topological_order` (`src/main.py` lines 64–87): Kahn's algorithm over the
adjacency matrix, raising `ValueError` when the output is not complete. -/
def topological_order (n : Nat) (matriz : List (List Int)) : Except Err (List Nat) :=
  let g := grauEntrada n matriz
  let ordem := kahnLoop matriz (n + 1) g
    ((List.range n).filter (fun i => g.getD i 0 = 0)) []
  if ordem.length = n then .ok ordem else .error .cycle

/-- Working state of the relaxation pass: `distancias`, `predecessor` (single
witness, `-1` when absent) and `predecessores` (tie sets). -/
structure DPState where
  dist : List (WithBot Int)
  pred : List Int
  preds : List (List Nat)
deriving DecidableEq

/-- One edge relaxation (`src/main.py` lines 107–115): strict improvement
resets the tie set, a tie appends to it (re-seating the single witness only
when it is still `-1`), anything else is a no-op. -/
def relaxEdge (orig dest : Nat) (peso : Int) (st : DPState) : DPState :=
  let cand : WithBot Int := st.dist.getD orig ⊥ + (peso : Int)
  if st.dist.getD dest ⊥ < cand then
    DPState.mk (st.dist.set dest cand) (st.pred.set dest (orig : Int))
      (st.preds.set dest [orig])
  else if cand = st.dist.getD dest ⊥ then
    DPState.mk st.dist
      (if st.pred.getD dest (-1) = -1 then st.pred.set dest (orig : Int) else st.pred)
      (st.preds.set dest (st.preds.getD dest [] ++ [orig]))
  else st

/-- Relaxation of one matrix row starting at column `j` (`src/main.py`
lines 105–115, inner loop over `enumerate(matriz[orig])`). -/
def relaxRow (orig j : Nat) (row : List Int) (st : DPState) : DPState :=
  match row with
  | [] => st
  | peso :: rest =>
    relaxRow orig (j + 1) rest (if peso ≠ 0 then relaxEdge orig j peso st else st)

/-- Processing of one vertex of the topological order (`src/main.py`
lines 101–115): skip when unreachable, otherwise relax its outgoing row. -/
def processVertex (matriz : List (List Int)) (st : DPState) (orig : Nat) : DPState :=
  if st.dist.getD orig ⊥ = ⊥ then st else relaxRow orig 0 (matriz.getD orig []) st

/-- The whole relaxation pass over the topological order. -/
def runPass (matriz : List (List Int)) (ordem : List Nat) (st : DPState) : DPState :=
  ordem.foldl (processVertex matriz) st

/-- The `while cur != -1` predecessor-chain walk (`src/main.py`
lines 126–129), fuel-indexed; the chain strictly descends the topological
order, so the fuel `n + 1` used below is never exhausted. -/
def chain (pred : List Int) : Nat → Int → List Int
  | 0, _ => []
  | fuel + 1, cur =>
    if cur = -1 then [] else cur :: chain pred fuel (pyGetD pred (-1) cur)

/-- Cache-free semantics of the recursive `build` (`src/main.py`
lines 135–143): all optimal paths into `u` through the predecessor tie sets. -/
def build (preds : List (List Nat)) (origem : Int) : Nat → Int → List (List Int)
  | 0, _ => []
  | fuel + 1, u =>
    if u = origem then [[origem]]
    else (pyGetD preds [] u).foldl
      (fun acc (p : Nat) =>
        acc ++ (build preds origem fuel (p : Int)).map (fun pp => pp ++ [u])) []

/-- The memo table of the `lru_cache` decorating `build`: computed results
keyed by the argument. -/
abbrev Memo : Type := List (Int × List (List Int))

/-- Cache lookup. -/
def lookupMemo (memo : Memo) (u : Int) : Option (List (List Int)) :=
  (memo.find? (fun kv => kv.1 == u)).map (fun kv => kv.2)

/-- The memoized `build` exactly as executed (`src/main.py` lines 135–143
under `@lru_cache(None)`): on a cache miss the result is computed through
recursive calls that thread the cache, then stored. -/
def buildMemo (preds : List (List Nat)) (origem : Int) :
    Nat → Int → Memo → List (List Int) × Memo
  | 0, _, memo => ([], memo)
  | fuel + 1, u, memo =>
    match lookupMemo memo u with
    | some r => (r, memo)
    | none =>
      if u = origem then ([[origem]], ((u, [[origem]]) :: memo : List _))
      else
        let res := (pyGetD preds [] u).foldl
          (fun (acc : List (List Int) × Memo) (p : Nat) =>
            let r := buildMemo preds origem fuel (p : Int) acc.2
            (acc.1 ++ r.1.map (fun pp => pp ++ [u]), r.2))
          ([], memo)
        (res.1, ((u, res.1) :: res.2 : List _))

/-- The record returned by `longest_path_dag` (`src/main.py` lines 12–24);
`peso_total = none` is Python's `None`, "no path". -/
structure LongestPathResult where
  num_vertices : Nat
  matriz : List (List Int)
  origem : Int
  destino : Int
  ordem_topologica : List Nat
  distancias : List (WithBot Int)
  predecessor : List Int
  predecessores : List (List Nat)
  caminho_otimo : List Int
  caminhos_otimos : List (List Int)
  peso_total : Option Int
deriving DecidableEq

/-- `longest_path_dag` (`src/main.py` lines 93–159): topological order, DP
relaxation, then reconstruction of one optimal path (single-witness chain)
and of all optimal paths (memoized `build` with a fresh cache). -/
def longest_path_dag (n : Nat) (matriz : List (List Int)) (origem destino : Int) :
    Except Err LongestPathResult :=
  match topological_order n matriz with
  | .error e => .error e
  | .ok ordem =>
    match pySet (List.replicate n (⊥ : WithBot Int)) origem (0 : WithBot Int) with
    | none => .error .index
    | some dist0 =>
      let st := runPass matriz ordem
        (DPState.mk dist0 (List.replicate n (-1 : Int)) (List.replicate n []))
      match pyGet st.dist destino with
      | none => .error .index
      | some dt =>
        if dt = ⊥ then
          .ok (LongestPathResult.mk n matriz origem destino ordem st.dist st.pred
            st.preds [] [] none)
        else
          .ok (LongestPathResult.mk n matriz origem destino ordem st.dist st.pred
            st.preds ((chain st.pred (n + 1) destino).reverse)
            ((buildMemo st.preds origem (n + 1) destino ([] : List _)).1)
            (some (WithBot.unbot' 0 dt)))

/-- The per-vertex value demanded by the spec's invariant: the maximum over
all predecessors `p` on a nonzero edge `(p, v)` of `distancias[p] +
weight(p, v)`, `⊥` (negative infinity) when no reachable such `p` exists. -/
def recurVal (n : Nat) (matriz : List (List Int)) (dist : List (WithBot Int))
    (v : Nat) : WithBot Int :=
  (List.range n).foldl
    (fun acc p => if w matriz p v ≠ 0 then max acc (dist.getD p ⊥ + (w matriz p v : Int)) else acc) ⊥

/-! ### List access helpers -/

lemma getD_set_self {α : Type} {l : List α} {j : Nat} {v d : α} (h : j < l.length) :
    (l.set j v).getD j d = v := by
  simp [List.getD_eq_getElem?_getD, List.getElem?_set_self', List.getElem?_eq_getElem h]

lemma getD_set_ne {α : Type} {l : List α} {i j : Nat} {v d : α} (h : i ≠ j) :
    (l.set j v).getD i d = l.getD i d := by
  simp [List.getD_eq_getElem?_getD, List.getElem?_set_ne h.symm]

lemma getD_replicate {α : Type} {n i : Nat} {a d : α} (h : i < n) :
    (List.replicate n a).getD i d = a := by
  simp [List.getD_eq_getElem?_getD, List.getElem?_replicate, h]

lemma getD_oob {α : Type} {l : List α} {i : Nat} {d : α} (h : l.length ≤ i) :
    l.getD i d = d := by
  simp [List.getD_eq_getElem?_getD, List.getElem?_eq_none h]

/-! ### Edge and path basics -/

lemma Edg.lt_rows {matriz : List (List Int)} {u v : Nat} (h : Edg matriz u v) :
    u < matriz.length := by
  by_contra hu
  push_neg at hu
  apply h
  show w matriz u v = 0
  unfold w
  rw [getD_oob hu]
  exact getD_oob (Nat.zero_le v)

lemma Edg.lt_rowlen {matriz : List (List Int)} {u v : Nat} (h : Edg matriz u v) :
    v < (matriz.getD u []).length := by
  by_contra hv
  push_neg at hv
  apply h
  show w matriz u v = 0
  unfold w
  exact getD_oob hv

lemma Edg.lt_n {n : Nat} {matriz : List (List Int)} (hsq : Square n matriz)
    {u v : Nat} (h : Edg matriz u v) : u < n ∧ v < n := by
  obtain ⟨hlen, hrows⟩ := hsq
  have hu : u < matriz.length := h.lt_rows
  have hmem : matriz.getD u [] ∈ matriz := by
    rw [List.getD_eq_getElem?_getD, List.getElem?_eq_getElem hu]
    exact List.getElem_mem hu
  have hrow := hrows (matriz.getD u []) hmem
  exact ⟨hlen ▸ hu, hrow ▸ h.lt_rowlen⟩

lemma PathTo.ne_nil {matriz : List (List Int)} {s v : Nat} {p : List Nat}
    (h : PathTo matriz s v p) : p ≠ [] := by
  cases h with
  | nil => simp
  | snoc h1 h2 => simp

lemma PathTo.head_eq {matriz : List (List Int)} {s v : Nat} {p : List Nat}
    (h : PathTo matriz s v p) : p.head? = some s := by
  induction h with
  | nil => rfl
  | snoc h1 h2 ih =>
    rename_i v' u' p'
    rw [List.head?_append, ih]
    rfl

lemma PathTo.last_eq {matriz : List (List Int)} {s v : Nat} {p : List Nat}
    (h : PathTo matriz s v p) : p.getLast? = some v := by
  cases h with
  | nil => rfl
  | snoc h1 h2 => exact List.getLast?_concat _

lemma pathWeight_snoc {matriz : List (List Int)} {p : List Nat} {v : Nat} (u : Nat)
    (h : p.getLast? = some v) :
    pathWeight matriz (p ++ [u]) = pathWeight matriz p + w matriz v u := by
  induction p with
  | nil => simp at h
  | cons a rest ih =>
    cases rest with
    | nil =>
      simp only [List.getLast?_singleton, Option.some_inj] at h
      subst h
      simp [pathWeight]
    | cons b rest' =>
      have hlast : (b :: rest').getLast? = some v := by
        rw [List.getLast?_cons_cons] at h
        exact h
      have heq := ih hlast
      simp only [List.cons_append, List.append_eq, pathWeight] at heq ⊢
      rw [heq]
      ring

lemma PathTo.mem_lt {n : Nat} {matriz : List (List Int)} (hsq : Square n matriz)
    {s v : Nat} {p : List Nat} (hs : s < n) (h : PathTo matriz s v p) :
    ∀ x ∈ p, x < n := by
  induction h with
  | nil => simpa using hs
  | snoc h1 h2 ih =>
    intro x hx
    rcases List.mem_append.1 hx with hx | hx
    · exact ih x hx
    · rcases List.mem_singleton.1 hx with rfl
      exact (Edg.lt_n hsq h2).2

lemma PathTo.target_lt {n : Nat} {matriz : List (List Int)} (hsq : Square n matriz)
    {s v : Nat} {p : List Nat} (hs : s < n) (h : PathTo matriz s v p) : v < n := by
  have := h.last_eq
  have hv : v ∈ p := by
    have := List.mem_of_mem_getLast? (l := p) (a := v) this
    exact this
  exact h.mem_lt hsq hs v hv

/-! ### Kahn invariant: unprocessed in-degree counting -/

/-- Number of in-neighbours of `v` not yet processed (not in `acc`). -/
def inCnt (n : Nat) (matriz : List (List Int)) (acc : List Nat) (v : Nat) : Nat :=
  ((Finset.range n).filter (fun u => Edg matriz u v ∧ u ∉ acc)).card

lemma one_le_inCnt {n : Nat} {matriz : List (List Int)} {acc : List Nat} {u v : Nat}
    (hu : u < n) (he : Edg matriz u v) (hmem : u ∉ acc) : 1 ≤ inCnt n matriz acc v := by
  have : u ∈ (Finset.range n).filter (fun u => Edg matriz u v ∧ u ∉ acc) := by
    simp [Finset.mem_filter, Finset.mem_range, hu, he, hmem]
  exact Finset.card_pos.2 ⟨u, this⟩

lemma inCnt_snoc_of_edge {n : Nat} {matriz : List (List Int)} {acc : List Nat}
    {orig v : Nat} (he : Edg matriz orig v) (ho : orig ∉ acc) (hn : orig < n) :
    inCnt n matriz (acc ++ [orig]) v + 1 = inCnt n matriz acc v := by
  have hset : (Finset.range n).filter (fun u => Edg matriz u v ∧ u ∉ acc ++ [orig]) =
      ((Finset.range n).filter (fun u => Edg matriz u v ∧ u ∉ acc)).erase orig := by
    ext u
    simp only [Finset.mem_filter, Finset.mem_range, Finset.mem_erase, List.mem_append,
      List.mem_singleton]
    constructor
    · rintro ⟨h1, h2, h3⟩
      push_neg at h3
      exact ⟨h3.2, h1, h2, h3.1⟩
    · rintro ⟨h1, h2, h3, h4⟩
      exact ⟨h2, h3, by push_neg; exact ⟨h4, h1⟩⟩
  have hmem : orig ∈ (Finset.range n).filter (fun u => Edg matriz u v ∧ u ∉ acc) := by
    simp [Finset.mem_filter, Finset.mem_range, hn, he, ho]
  unfold inCnt
  rw [hset, Finset.card_erase_of_mem hmem]
  have := Finset.card_pos.2 ⟨orig, hmem⟩
  omega

lemma inCnt_snoc_of_not_edge {n : Nat} {matriz : List (List Int)} {acc : List Nat}
    {orig v : Nat} (he : ¬ Edg matriz orig v) :
    inCnt n matriz (acc ++ [orig]) v = inCnt n matriz acc v := by
  unfold inCnt
  congr 1
  ext u
  simp only [Finset.mem_filter, Finset.mem_range, List.mem_append, List.mem_singleton]
  constructor
  · rintro ⟨h1, h2, h3⟩
    push_neg at h3
    exact ⟨h1, h2, h3.1⟩
  · rintro ⟨h1, h2, h3⟩
    refine ⟨h1, h2, ?_⟩
    push_neg
    refine ⟨h3, ?_⟩
    rintro rfl
    exact he h2

lemma inCnt_le_snoc (n : Nat) (matriz : List (List Int)) (acc : List Nat)
    (orig v : Nat) : inCnt n matriz (acc ++ [orig]) v ≤ inCnt n matriz acc v := by
  unfold inCnt
  apply Finset.card_le_card
  intro u
  simp only [Finset.mem_filter, Finset.mem_range, List.mem_append, List.mem_singleton]
  rintro ⟨h1, h2, h3⟩
  push_neg at h3
  exact ⟨h1, h2, h3.1⟩

/-! ### Relative position in a list -/

/-- `u` occurs at a strictly earlier position than `v` in `l`. -/
def Before (l : List Nat) (u v : Nat) : Prop :=
  ∃ i j : Nat, i < j ∧ l[i]? = some u ∧ l[j]? = some v

lemma Before.trans_nodup {l : List Nat} (hnd : l.Nodup) {u v x : Nat}
    (h1 : Before l u v) (h2 : Before l v x) : Before l u x := by
  obtain ⟨i, j, hij, hi, hj⟩ := h1
  obtain ⟨i', j', hij', hi', hj'⟩ := h2
  have hjlen : j < l.length := (List.getElem?_eq_some.1 hj).1
  have : j = i' := List.getElem?_inj hjlen hnd (hj.trans hi'.symm)
  exact ⟨i, j', by omega, hi, hj'⟩

lemma Before.irrefl_nodup {l : List Nat} (hnd : l.Nodup) {u : Nat}
    (h : Before l u u) : False := by
  obtain ⟨i, j, hij, hi, hj⟩ := h
  have hilen : i < l.length := (List.getElem?_eq_some.1 hi).1
  have : i = j := List.getElem?_inj hilen hnd (hi.trans hj.symm)
  omega

lemma Before.snoc {l : List Nat} {u v : Nat} (h : Before l u v) (x : Nat) :
    Before (l ++ [x]) u v := by
  obtain ⟨i, j, hij, hi, hj⟩ := h
  have hjlen : j < l.length := (List.getElem?_eq_some.1 hj).1
  have hilen : i < l.length := (List.getElem?_eq_some.1 hi).1
  exact ⟨i, j, hij, by rw [List.getElem?_append_left hilen]; exact hi,
    by rw [List.getElem?_append_left hjlen]; exact hj⟩

lemma Before.mem_snoc {l : List Nat} {u x : Nat} (h : u ∈ l) : Before (l ++ [x]) u x := by
  obtain ⟨i, hi, hval⟩ := List.getElem_of_mem h
  refine ⟨i, l.length, hi, ?_, List.getElem?_concat_length l x⟩
  rw [List.getElem?_append_left hi, List.getElem?_eq_getElem hi, hval]

/-! ### Kahn loop invariants -/

lemma Square.row_len {n : Nat} {matriz : List (List Int)} (hsq : Square n matriz)
    {orig : Nat} (ho : orig < n) : (matriz.getD orig []).length = n := by
  obtain ⟨hlen, hrows⟩ := hsq
  have hu : orig < matriz.length := by omega
  have hmem : matriz.getD orig [] ∈ matriz := by
    rw [List.getD_eq_getElem?_getD, List.getElem?_eq_getElem hu]
    exact List.getElem_mem hu
  exact hrows _ hmem

lemma drop_head_w {matriz : List (List Int)} {orig j : Nat} {peso : Int}
    {rest : List Int} (h : (matriz.getD orig []).drop j = peso :: rest) :
    w matriz orig j = peso ∧ (matriz.getD orig []).drop (j + 1) = rest ∧
      j < (matriz.getD orig []).length := by
  have hlt : j < (matriz.getD orig []).length := by
    by_contra hc
    push_neg at hc
    rw [List.drop_eq_nil_iff.2 hc] at h
    exact List.noConfusion h
  refine ⟨?_, ?_, hlt⟩
  · have h0 : ((matriz.getD orig []).drop j)[0]? = some peso := by rw [h]; simp
    rw [List.getElem?_drop] at h0
    unfold w
    rw [List.getD_eq_getElem?_getD]
    simp only [Nat.add_zero] at h0
    rw [h0]
    rfl
  · rw [← List.tail_drop, h]
    rfl

/-- Unprocessed in-degree in the middle of `orig`'s row scan: columns before
`j` already account for `orig` as processed. -/
def cntMid (n : Nat) (matriz : List (List Int)) (acc : List Nat) (orig j v : Nat) : Nat :=
  if v < j then inCnt n matriz (acc ++ [orig]) v else inCnt n matriz acc v

/-- Invariant of the outer Kahn loop. -/
structure KInv (n : Nat) (matriz : List (List Int)) (grau : List Int)
    (fila : List Nat) (acc : List Nat) : Prop where
  nodup : (acc ++ fila).Nodup
  mem_lt : ∀ x ∈ acc ++ fila, x < n
  glen : grau.length = n
  gcount : ∀ v, v < n → grau.getD v 0 = (inCnt n matriz acc v : Int)
  fila_zero : ∀ v ∈ fila, inCnt n matriz acc v = 0
  acc_zero : ∀ v ∈ acc, inCnt n matriz acc v = 0
  zero_mem : ∀ v, v < n → inCnt n matriz acc v = 0 → v ∈ acc ++ fila
  resp : ∀ v ∈ acc, ∀ u, u < n → Edg matriz u v → Before acc u v

/-- Invariant in the middle of one dequeued vertex's row scan. -/
structure MInv (n : Nat) (matriz : List (List Int)) (acc : List Nat) (orig : Nat)
    (j : Nat) (grau : List Int) (fila : List Nat) : Prop where
  nodup : ((acc ++ [orig]) ++ fila).Nodup
  mem_lt : ∀ x ∈ fila, x < n
  glen : grau.length = n
  gcount : ∀ v, v < n → grau.getD v 0 = (cntMid n matriz acc orig j v : Int)
  fila_zero : ∀ v ∈ fila, cntMid n matriz acc orig j v = 0
  zero_mem : ∀ v, v < n → cntMid n matriz acc orig j v = 0 → v ∈ (acc ++ [orig]) ++ fila

lemma cntMid_ge {n : Nat} {matriz : List (List Int)} {acc : List Nat} {orig j v : Nat}
    (h : j ≤ v) : cntMid n matriz acc orig j v = inCnt n matriz acc v := by
  unfold cntMid
  rw [if_neg (by omega)]

lemma cntMid_succ_ne {n : Nat} {matriz : List (List Int)} {acc : List Nat}
    {orig j v : Nat} (h : v ≠ j) :
    cntMid n matriz acc orig (j + 1) v = cntMid n matriz acc orig j v := by
  unfold cntMid
  rcases Nat.lt_or_ge v j with hv | hv
  · rw [if_pos (by omega), if_pos hv]
  · rw [if_neg (by omega), if_neg (by omega)]

lemma cntMid_succ_self {n : Nat} {matriz : List (List Int)} {acc : List Nat}
    {orig j : Nat} :
    cntMid n matriz acc orig (j + 1) j = inCnt n matriz (acc ++ [orig]) j := by
  unfold cntMid
  rw [if_pos (by omega)]

lemma decRow_cons {j : Nat} {peso : Int} {rest : List Int} {grau : List Int}
    {fila : List Nat} :
    decRow j (peso :: rest) grau fila =
      if peso ≠ 0 then
        decRow (j + 1) rest (grau.set j (grau.getD j 0 - 1))
          (if (grau.set j (grau.getD j 0 - 1)).getD j 0 = 0 then fila ++ [j] else fila)
      else decRow (j + 1) rest grau fila := by
  rfl

lemma decRow_inv {n : Nat} {matriz : List (List Int)} (hsq : Square n matriz)
    {acc : List Nat} {orig : Nat}
    (ho_lt : orig < n) (ho_nacc : orig ∉ acc) (ho_zero : inCnt n matriz acc orig = 0)
    (hacc_zero : ∀ v ∈ acc, inCnt n matriz acc v = 0) :
    ∀ row j grau fila, (matriz.getD orig []).drop j = row →
      MInv n matriz acc orig j grau fila →
      MInv n matriz acc orig n (decRow j row grau fila).1 (decRow j row grau fila).2 := by
  intro row
  induction row with
  | nil =>
    intro j grau fila hdrop hm
    have hj : n ≤ j := by
      have := List.drop_eq_nil_iff.1 hdrop
      rw [hsq.row_len ho_lt] at this
      exact this
    have hcnt : ∀ v, v < n → cntMid n matriz acc orig n v = cntMid n matriz acc orig j v := by
      intro v hv
      unfold cntMid
      rw [if_pos hv, if_pos (by omega)]
    exact ⟨hm.nodup, hm.mem_lt, hm.glen,
      fun v hv => by rw [hcnt v hv]; exact hm.gcount v hv,
      fun v hv => by
        have hvn : v < n := hm.mem_lt v hv
        rw [hcnt v hvn]; exact hm.fila_zero v hv,
      fun v hv h0 => hm.zero_mem v hv (by rw [← hcnt v hv]; exact h0)⟩
  | cons peso rest ih =>
    intro j grau fila hdrop hm
    obtain ⟨hw, hdrop', hjlen⟩ := drop_head_w hdrop
    have hjn : j < n := by rw [hsq.row_len ho_lt] at hjlen; exact hjlen
    rw [decRow_cons]
    by_cases hpeso : peso ≠ 0
    · rw [if_pos hpeso]
      have he : Edg matriz orig j := by rw [Edg, hw]; exact hpeso
      have hone : 1 ≤ inCnt n matriz acc j := one_le_inCnt ho_lt he ho_nacc
      have hcj : inCnt n matriz (acc ++ [orig]) j + 1 = inCnt n matriz acc j :=
        inCnt_snoc_of_edge he ho_nacc ho_lt
      have hj_ne_orig : j ≠ orig := by
        rintro rfl
        have := one_le_inCnt ho_lt he ho_nacc
        omega
      have hj_nacc : j ∉ acc := by
        intro hj
        have := hacc_zero j hj
        omega
      have hj_nfila : j ∉ fila := by
        intro hj
        have := hm.fila_zero j hj
        rw [cntMid_ge (le_refl j)] at this
        omega
      have hgj : grau.getD j 0 = (inCnt n matriz acc j : Int) := by
        have := hm.gcount j hjn
        rw [cntMid_ge (le_refl j)] at this
        exact this
      have hglen' : (grau.set j (grau.getD j 0 - 1)).length = n := by
        rw [List.length_set]; exact hm.glen
      have hsetj : (grau.set j (grau.getD j 0 - 1)).getD j 0 =
          (inCnt n matriz (acc ++ [orig]) j : Int) := by
        rw [getD_set_self (by rw [hm.glen]; exact hjn), hgj]
        omega
      have hgcount' : ∀ v, v < n → (grau.set j (grau.getD j 0 - 1)).getD v 0 =
          (cntMid n matriz acc orig (j + 1) v : Int) := by
        intro v hv
        by_cases hvj : v = j
        · subst hvj
          rw [hsetj, cntMid_succ_self]
        · rw [getD_set_ne hvj, cntMid_succ_ne hvj]
          exact hm.gcount v hv
      by_cases hzero : (grau.set j (grau.getD j 0 - 1)).getD j 0 = 0
      · rw [if_pos hzero]
        have hcnt0 : inCnt n matriz (acc ++ [orig]) j = 0 := by
          rw [hsetj] at hzero
          exact_mod_cast hzero
        have hjA : j ∉ acc ++ [orig] := by
          intro hj
          rcases List.mem_append.1 hj with h | h
          · exact hj_nacc h
          · exact hj_ne_orig (List.mem_singleton.1 h)
        refine ih (j + 1) _ _ hdrop' ⟨?_, ?_, hglen', hgcount', ?_, ?_⟩
        · have hnd := hm.nodup
          rw [List.nodup_append] at hnd ⊢
          obtain ⟨h1, h2, h3⟩ := hnd
          refine ⟨h1, ?_, ?_⟩
          · rw [List.nodup_append]
            refine ⟨h2, List.nodup_singleton j, ?_⟩
            intro a ha hb
            rcases List.mem_singleton.1 hb with rfl
            exact hj_nfila ha
          · intro a ha hb
            rcases List.mem_append.1 hb with hb | hb
            · exact h3 ha hb
            · rcases List.mem_singleton.1 hb with rfl
              exact hjA ha
        · intro x hx
          rcases List.mem_append.1 hx with hx | hx
          · exact hm.mem_lt x hx
          · rcases List.mem_singleton.1 hx with rfl
            exact hjn
        · intro v hv
          rcases List.mem_append.1 hv with hv | hv
          · have hvne : v ≠ j := fun h => hj_nfila (h ▸ hv)
            rw [cntMid_succ_ne hvne]
            exact hm.fila_zero v hv
          · rcases List.mem_singleton.1 hv with rfl
            rw [cntMid_succ_self]
            exact hcnt0
        · intro v hv h0
          by_cases hvj : v = j
          · subst hvj
            exact List.mem_append.2 (Or.inr (List.mem_append.2 (Or.inr (List.mem_singleton.2 rfl))))
          · rw [cntMid_succ_ne hvj] at h0
            have := hm.zero_mem v hv h0
            rcases List.mem_append.1 this with h | h
            · exact List.mem_append.2 (Or.inl h)
            · exact List.mem_append.2 (Or.inr (List.mem_append.2 (Or.inl h)))
      · rw [if_neg hzero]
        have hcnt0 : inCnt n matriz (acc ++ [orig]) j ≠ 0 := by
          rw [hsetj] at hzero
          exact_mod_cast hzero
        refine ih (j + 1) _ _ hdrop' ⟨hm.nodup, hm.mem_lt, hglen', hgcount', ?_, ?_⟩
        · intro v hv
          have hvne : v ≠ j := by
            rintro rfl
            have := hm.fila_zero v hv
            rw [cntMid_ge (le_refl v)] at this
            omega
          rw [cntMid_succ_ne hvne]
          exact hm.fila_zero v hv
        · intro v hv h0
          by_cases hvj : v = j
          · subst hvj
            rw [cntMid_succ_self] at h0
            exact absurd h0 hcnt0
          · rw [cntMid_succ_ne hvj] at h0
            exact hm.zero_mem v hv h0
    · rw [if_neg hpeso]
      push_neg at hpeso
      have hne : ¬ Edg matriz orig j := by rw [Edg, hw]; simpa using hpeso
      have hcntj : cntMid n matriz acc orig (j + 1) j = cntMid n matriz acc orig j j := by
        rw [cntMid_succ_self, cntMid_ge (le_refl j), inCnt_snoc_of_not_edge hne]
      have hcnt : ∀ v, cntMid n matriz acc orig (j + 1) v = cntMid n matriz acc orig j v := by
        intro v
        by_cases hvj : v = j
        · subst hvj; exact hcntj
        · exact cntMid_succ_ne hvj
      refine ih (j + 1) _ _ hdrop' ⟨hm.nodup, hm.mem_lt, hm.glen, ?_, ?_, ?_⟩
      · intro v hv; rw [hcnt v]; exact hm.gcount v hv
      · intro v hv; rw [hcnt v]; exact hm.fila_zero v hv
      · intro v hv h0; rw [hcnt v] at h0; exact hm.zero_mem v hv h0

lemma cntMid_lt {n : Nat} {matriz : List (List Int)} {acc : List Nat} {orig j v : Nat}
    (h : v < j) : cntMid n matriz acc orig j v = inCnt n matriz (acc ++ [orig]) v := by
  unfold cntMid
  rw [if_pos h]

lemma KInv_step {n : Nat} {matriz : List (List Int)} (hsq : Square n matriz)
    {grau : List Int} {orig : Nat} {rest acc : List Nat}
    (hinv : KInv n matriz grau (orig :: rest) acc) :
    KInv n matriz (decRow 0 (matriz.getD orig []) grau rest).1
      (decRow 0 (matriz.getD orig []) grau rest).2 (acc ++ [orig]) := by
  have hassoc : acc ++ orig :: rest = (acc ++ [orig]) ++ rest := by simp
  have ho_mem : orig ∈ acc ++ orig :: rest :=
    List.mem_append.2 (Or.inr (List.mem_cons_self orig rest))
  have ho_lt : orig < n := hinv.mem_lt orig ho_mem
  have ho_zero : inCnt n matriz acc orig = 0 :=
    hinv.fila_zero orig (List.mem_cons_self orig rest)
  have ho_nacc : orig ∉ acc := by
    intro hmem
    have hnd := hinv.nodup
    rw [List.nodup_append] at hnd
    exact hnd.2.2 hmem (List.mem_cons_self orig rest)
  have hm0 : MInv n matriz acc orig 0 grau rest := by
    refine ⟨?_, ?_, hinv.glen, ?_, ?_, ?_⟩
    · rw [← hassoc]
      exact hinv.nodup
    · intro x hx
      exact hinv.mem_lt x (List.mem_append.2 (Or.inr (List.mem_cons_of_mem orig hx)))
    · intro v hv
      rw [cntMid_ge (Nat.zero_le v)]
      exact hinv.gcount v hv
    · intro v hv
      rw [cntMid_ge (Nat.zero_le v)]
      exact hinv.fila_zero v (List.mem_cons_of_mem orig hv)
    · intro v hv h0
      rw [cntMid_ge (Nat.zero_le v)] at h0
      rw [← hassoc]
      exact hinv.zero_mem v hv h0
  have hm := decRow_inv hsq ho_lt ho_nacc ho_zero hinv.acc_zero
    (matriz.getD orig []) 0 grau rest (List.drop_zero _) hm0
  refine ⟨hm.nodup, ?_, hm.glen, ?_, ?_, ?_, ?_, ?_⟩
  · intro x hx
    rcases List.mem_append.1 hx with hx | hx
    · exact hinv.mem_lt x (by rw [hassoc]; exact List.mem_append.2 (Or.inl hx))
    · exact hm.mem_lt x hx
  · intro v hv
    rw [← cntMid_lt (j := n) hv]
    exact hm.gcount v hv
  · intro v hv
    have hvn : v < n := hm.mem_lt v hv
    rw [← cntMid_lt (j := n) hvn]
    exact hm.fila_zero v hv
  · intro v hv
    have hle := inCnt_le_snoc n matriz acc orig v
    rcases List.mem_append.1 hv with hx | hx
    · have := hinv.acc_zero v hx
      omega
    · rcases List.mem_singleton.1 hx with heq
      rw [heq]
      rw [heq] at hle
      have := ho_zero
      omega
  · intro v hv h0
    rw [← cntMid_lt (j := n) hv] at h0
    exact hm.zero_mem v hv h0
  · intro v hv u hu he
    rcases List.mem_append.1 hv with hx | hx
    · exact (hinv.resp v hx u hu he).snoc orig
    · rcases List.mem_singleton.1 hx with rfl
      have humem : u ∈ acc := by
        by_contra hna
        have := one_le_inCnt hu he hna
        omega
      exact Before.mem_snoc humem

lemma kahnLoop_cons {matriz : List (List Int)} {fuel : Nat} {grau : List Int}
    {orig : Nat} {rest acc : List Nat} :
    kahnLoop matriz (fuel + 1) grau (orig :: rest) acc =
      kahnLoop matriz fuel (decRow 0 (matriz.getD orig []) grau rest).1
        (decRow 0 (matriz.getD orig []) grau rest).2 (acc ++ [orig]) := rfl

lemma kahnLoop_nil_fila {matriz : List (List Int)} {fuel : Nat} {grau : List Int}
    {acc : List Nat} : kahnLoop matriz (fuel + 1) grau [] acc = acc := rfl

lemma length_le_of_nodup_lt {l : List Nat} {n : Nat} (hnd : l.Nodup)
    (hlt : ∀ x ∈ l, x < n) : l.length ≤ n := by
  have h1 : l.length = l.toFinset.card := (List.toFinset_card_of_nodup hnd).symm
  have h2 : l.toFinset ⊆ Finset.range n := by
    intro x hx
    rw [Finset.mem_range]
    exact hlt x (List.mem_toFinset.1 hx)
  calc l.length = l.toFinset.card := h1
    _ ≤ (Finset.range n).card := Finset.card_le_card h2
    _ = n := Finset.card_range n

lemma kahnLoop_spec {n : Nat} {matriz : List (List Int)} (hsq : Square n matriz) :
    ∀ fuel grau fila acc, KInv n matriz grau fila acc →
      n - acc.length < fuel →
      ∃ grau', KInv n matriz grau' [] (kahnLoop matriz fuel grau fila acc) := by
  intro fuel
  induction fuel with
  | zero =>
    intro grau fila acc hinv hfuel
    omega
  | succ fuel ih =>
    intro grau fila acc hinv hfuel
    cases fila with
    | nil =>
      rw [kahnLoop_nil_fila]
      exact ⟨grau, hinv⟩
    | cons orig rest =>
      rw [kahnLoop_cons]
      have hstep := KInv_step hsq hinv
      have hlen : acc.length + rest.length + 1 ≤ n := by
        have h1 := length_le_of_nodup_lt hinv.nodup hinv.mem_lt
        simp only [List.length_append, List.length_cons] at h1
        omega
      refine ih _ _ _ hstep ?_
      simp only [List.length_append, List.length_singleton]
      omega

/-! ### In-degree initialisation -/

/-- In-degree of `v` counting only sources below `k`. -/
def inCntUpto (k : Nat) (matriz : List (List Int)) (v : Nat) : Nat :=
  ((Finset.range k).filter (fun u => Edg matriz u v)).card

lemma inCnt_nil {n : Nat} {matriz : List (List Int)} {v : Nat} :
    inCnt n matriz [] v = inCntUpto n matriz v := by
  unfold inCnt inCntUpto
  congr 1
  ext u
  simp [Finset.mem_filter]

lemma inCntUpto_succ {k : Nat} {matriz : List (List Int)} {v : Nat} :
    (inCntUpto (k + 1) matriz v : Int) =
      (inCntUpto k matriz v : Int) + (if Edg matriz k v then 1 else 0) := by
  unfold inCntUpto
  rw [Finset.range_succ, Finset.filter_insert]
  by_cases he : Edg matriz k v
  · rw [if_pos he, if_pos he, Finset.card_insert_of_not_mem (by simp)]
    push_cast
    ring
  · rw [if_neg he, if_neg he]
    ring

lemma countRow_cons {j : Nat} {peso : Int} {rest : List Int} {g : List Int} :
    countRow j (peso :: rest) g =
      countRow (j + 1) rest (if peso ≠ 0 then g.set j (g.getD j 0 + 1) else g) := rfl

lemma countRow_spec {n : Nat} {matriz : List (List Int)} (hsq : Square n matriz)
    {orig : Nat} (ho : orig < n) (base : Nat → Int) :
    ∀ row j g, (matriz.getD orig []).drop j = row → g.length = n →
      (∀ v, v < n → g.getD v 0 = base v + (if Edg matriz orig v ∧ v < j then 1 else 0)) →
      (countRow j row g).length = n ∧
        ∀ v, v < n → (countRow j row g).getD v 0 =
          base v + (if Edg matriz orig v then 1 else 0) := by
  intro row
  induction row with
  | nil =>
    intro j g hdrop hlen hbase
    have hj : n ≤ j := by
      rw [← hsq.row_len ho]
      exact List.drop_eq_nil_iff.1 hdrop
    refine ⟨hlen, fun v hv => ?_⟩
    show g.getD v 0 = base v + if Edg matriz orig v then 1 else 0
    rw [hbase v hv]
    congr 1
    by_cases he : Edg matriz orig v
    · rw [if_pos (by exact ⟨he, by omega⟩), if_pos he]
    · rw [if_neg (by rintro ⟨h, _⟩; exact he h), if_neg he]
  | cons peso rest ih =>
    intro j g hdrop hlen hbase
    obtain ⟨hw, hdrop', hjlen⟩ := drop_head_w hdrop
    have hjn : j < n := by rw [hsq.row_len ho] at hjlen; exact hjlen
    rw [countRow_cons]
    by_cases hpeso : peso ≠ 0
    · rw [if_pos hpeso]
      have he : Edg matriz orig j := by rw [Edg, hw]; exact hpeso
      refine ih (j + 1) _ hdrop' (by rw [List.length_set]; exact hlen) ?_
      intro v hv
      by_cases hvj : v = j
      · subst hvj
        rw [getD_set_self (by omega), hbase v hv]
        rw [if_neg (by rintro ⟨_, h⟩; omega), if_pos ⟨he, by omega⟩]
        ring
      · rw [getD_set_ne hvj, hbase v hv]
        congr 1
        by_cases he' : Edg matriz orig v
        · by_cases hvj' : v < j
          · rw [if_pos ⟨he', hvj'⟩, if_pos ⟨he', by omega⟩]
          · rw [if_neg (by rintro ⟨_, h⟩; exact hvj' h), if_neg (by rintro ⟨_, h⟩; omega)]
        · rw [if_neg (by rintro ⟨h, _⟩; exact he' h), if_neg (by rintro ⟨h, _⟩; exact he' h)]
    · rw [if_neg hpeso]
      push_neg at hpeso
      have hne : ¬ Edg matriz orig j := by rw [Edg, hw]; simpa using hpeso
      refine ih (j + 1) _ hdrop' hlen ?_
      intro v hv
      rw [hbase v hv]
      congr 1
      by_cases he' : Edg matriz orig v
      · have hvj : v ≠ j := by rintro rfl; exact hne he'
        by_cases hvj' : v < j
        · rw [if_pos ⟨he', hvj'⟩, if_pos ⟨he', by omega⟩]
        · rw [if_neg (by rintro ⟨_, h⟩; exact hvj' h), if_neg (by rintro ⟨_, h⟩; omega)]
      · rw [if_neg (by rintro ⟨h, _⟩; exact he' h), if_neg (by rintro ⟨h, _⟩; exact he' h)]

lemma grauEntrada_spec {n : Nat} {matriz : List (List Int)} (hsq : Square n matriz) :
    (grauEntrada n matriz).length = n ∧
      ∀ v, v < n → (grauEntrada n matriz).getD v 0 = (inCntUpto n matriz v : Int) := by
  suffices h : ∀ k, k ≤ n →
      ((List.range k).foldl (fun g orig => countRow 0 (matriz.getD orig []) g)
        (List.replicate n (0 : Int))).length = n ∧
      ∀ v, v < n →
        ((List.range k).foldl (fun g orig => countRow 0 (matriz.getD orig []) g)
          (List.replicate n (0 : Int))).getD v 0 = (inCntUpto k matriz v : Int) by
    exact h n (le_refl n)
  intro k
  induction k with
  | zero =>
    intro _
    constructor
    · simp
    · intro v hv
      rw [List.range_zero]
      simp only [List.foldl_nil]
      rw [getD_replicate hv]
      unfold inCntUpto
      simp
  | succ k ih =>
    intro hk
    have hk' : k ≤ n := by omega
    obtain ⟨ihlen, ihval⟩ := ih hk'
    have hfold : (List.range (k + 1)).foldl
        (fun g orig => countRow 0 (matriz.getD orig []) g) (List.replicate n (0 : Int)) =
        countRow 0 (matriz.getD k [])
          ((List.range k).foldl (fun g orig => countRow 0 (matriz.getD orig []) g)
            (List.replicate n (0 : Int))) := by
      rw [List.range_succ, List.foldl_append]
      rfl
    rw [hfold]
    have hcs := countRow_spec hsq (by omega : k < n) (fun v => (inCntUpto k matriz v : Int))
      (matriz.getD k []) 0 _ (List.drop_zero _) ihlen ?_
    · refine ⟨hcs.1, fun v hv => ?_⟩
      rw [hcs.2 v hv, inCntUpto_succ]
    · intro v hv
      rw [ihval v hv]
      rw [if_neg (by rintro ⟨_, h⟩; omega)]
      ring

lemma KInv_init {n : Nat} {matriz : List (List Int)} (hsq : Square n matriz) :
    KInv n matriz (grauEntrada n matriz)
      ((List.range n).filter (fun i => (grauEntrada n matriz).getD i 0 = 0)) [] := by
  obtain ⟨hglen, hgval⟩ := grauEntrada_spec hsq
  have hmemf : ∀ v, v ∈ (List.range n).filter
      (fun i => (grauEntrada n matriz).getD i 0 = 0) ↔
      v < n ∧ (grauEntrada n matriz).getD v 0 = 0 := by
    intro v
    rw [List.mem_filter, List.mem_range]
    simp
  refine ⟨?_, ?_, hglen, ?_, ?_, ?_, ?_, ?_⟩
  · rw [List.nil_append]
    exact (List.nodup_range n).filter _
  · intro x hx
    rw [List.nil_append] at hx
    exact ((hmemf x).1 hx).1
  · intro v hv
    rw [hgval v hv, inCnt_nil]
  · intro v hv
    obtain ⟨hvn, hv0⟩ := (hmemf v).1 hv
    rw [hgval v hvn] at hv0
    rw [inCnt_nil]
    exact_mod_cast hv0
  · intro v hv
    exact absurd hv (List.not_mem_nil v)
  · intro v hv h0
    rw [List.nil_append]
    rw [inCnt_nil] at h0
    refine (hmemf v).2 ⟨hv, ?_⟩
    rw [hgval v hv]
    exact_mod_cast h0
  · intro v hv
    exact absurd hv (List.not_mem_nil v)

/-! ### Results about `topological_order` -/

/-- The raw output of the Kahn loop inside `topological_order`. -/
def kahnRun (n : Nat) (matriz : List (List Int)) : List Nat :=
  kahnLoop matriz (n + 1) (grauEntrada n matriz)
    ((List.range n).filter (fun i => (grauEntrada n matriz).getD i 0 = 0)) []

lemma topological_order_eq (n : Nat) (matriz : List (List Int)) :
    topological_order n matriz =
      if (kahnRun n matriz).length = n then .ok (kahnRun n matriz)
      else .error .cycle := rfl

lemma kahn_final {n : Nat} {matriz : List (List Int)} (hsq : Square n matriz) :
    ∃ grau', KInv n matriz grau' [] (kahnRun n matriz) := by
  apply kahnLoop_spec hsq (n + 1) _ _ [] (KInv_init hsq)
  simp

lemma topo_ok_spec {n : Nat} {matriz : List (List Int)} {ordem : List Nat}
    (hsq : Square n matriz) (h : topological_order n matriz = .ok ordem) :
    ordem.length = n ∧ ordem.Nodup ∧ (∀ x ∈ ordem, x < n) ∧
      (∀ u v, u < n → Edg matriz u v → v ∈ ordem → Before ordem u v) ∧
      ordem.Perm (List.range n) := by
  rw [topological_order_eq] at h
  by_cases hlen : (kahnRun n matriz).length = n
  · rw [if_pos hlen] at h
    injection h with h
    subst h
    obtain ⟨grau', hinv⟩ := kahn_final hsq
    have hnd : (kahnRun n matriz).Nodup := by
      have := hinv.nodup
      rwa [List.append_nil] at this
    have hmem : ∀ x ∈ kahnRun n matriz, x < n := by
      intro x hx
      exact hinv.mem_lt x (by rw [List.append_nil]; exact hx)
    have hperm : (kahnRun n matriz).Perm (List.range n) := by
      apply List.perm_of_nodup_nodup_toFinset_eq hnd (List.nodup_range n)
      apply Finset.eq_of_subset_of_card_le
      · intro x hx
        rw [List.mem_toFinset, List.mem_range]
        exact hmem x (List.mem_toFinset.1 hx)
      · have h1 : (kahnRun n matriz).length = (kahnRun n matriz).toFinset.card :=
          (List.toFinset_card_of_nodup hnd).symm
        have h2 : (List.range n).length = (List.range n).toFinset.card :=
          (List.toFinset_card_of_nodup (List.nodup_range n)).symm
        rw [List.length_range] at h2
        omega
    exact ⟨hlen, hnd, hmem, fun u v hu he hv => hinv.resp v hv u hu he, hperm⟩
  · rw [if_neg hlen] at h
    exact absurd h (by simp)

lemma chain_before {n : Nat} {matriz : List (List Int)} (hsq : Square n matriz)
    {l : List Nat} (hnd : l.Nodup)
    (hE : ∀ u v, u < n → Edg matriz u v → v ∈ l → Before l u v)
    (hmem : ∀ v, v < n → v ∈ l) :
    ∀ p : List Nat, p.Chain' (fun u v => w matriz u v ≠ 0) → 2 ≤ p.length →
      ∀ x y, p.head? = some x → p.getLast? = some y → Before l x y := by
  intro p
  induction p with
  | nil => intro _ h2; simp at h2
  | cons a q ih =>
    intro hchain h2 x y hx hy
    cases q with
    | nil => simp at h2
    | cons b r =>
      have hab : Edg matriz a b := (List.chain'_cons.1 hchain).1
      have hbn : b < n := (Edg.lt_n hsq hab).2
      have han : a < n := (Edg.lt_n hsq hab).1
      have h1 : Before l a b := hE a b han hab (hmem b hbn)
      have hxa : x = a := by
        simp only [List.head?_cons, Option.some_inj] at hx
        exact hx.symm
      subst hxa
      cases r with
      | nil =>
        have hyb : y = b := by
          simp only [List.getLast?_cons_cons, List.getLast?_singleton,
            Option.some_inj] at hy
          exact hy.symm
        subst hyb
        exact h1
      | cons c r' =>
        have hchain' : (b :: c :: r').Chain' (fun u v => w matriz u v ≠ 0) :=
          (List.chain'_cons.1 hchain).2
        have hy' : (b :: c :: r').getLast? = some y := by
          rw [List.getLast?_cons_cons] at hy
          exact hy
        have h2' : 2 ≤ (b :: c :: r').length := by simp
        have hb2 := ih hchain' h2' b y rfl hy'
        exact h1.trans_nodup hnd hb2

lemma acyclic_of_topo_ok {n : Nat} {matriz : List (List Int)} {ordem : List Nat}
    (hsq : Square n matriz) (h : topological_order n matriz = .ok ordem) :
    Acyclic matriz := by
  obtain ⟨hlen, hnd, hmemlt, hresp, hperm⟩ := topo_ok_spec hsq h
  rintro ⟨p, h2, hhl, hchain⟩
  have hmem : ∀ v, v < n → v ∈ ordem := by
    intro v hv
    exact hperm.symm.subset (List.mem_range.2 hv)
  obtain ⟨x, hx⟩ : ∃ x, p.head? = some x := by
    cases p with
    | nil => simp at h2
    | cons a t => exact ⟨a, rfl⟩
  have hy : p.getLast? = some x := by rw [← hhl]; exact hx
  have := chain_before hsq hnd hresp hmem p hchain h2 x x hx hy
  exact this.irrefl_nodup hnd

lemma hasCycle_of_seq {matriz : List (List Int)} (seq : Nat → Nat)
    (hedge : ∀ k, Edg matriz (seq (k + 1)) (seq k)) {a b : Nat} (hab : a < b)
    (heq : seq a = seq b) : HasCycle matriz := by
  refine ⟨(List.range (b - a + 1)).map (fun t => seq (b - t)), ?_, ?_, ?_⟩
  · simp only [List.length_map, List.length_range]
    omega
  · rw [List.head?_eq_getElem?, List.getLast?_eq_getElem?]
    simp only [List.length_map, List.length_range, Nat.add_sub_cancel]
    rw [List.getElem?_map, List.getElem?_map,
      List.getElem?_range (by omega), List.getElem?_range (by omega)]
    simp only [Option.map_some']
    have h1 : b - 0 = b := by omega
    have h2 : b - (b - a) = a := by omega
    rw [h1, h2, heq]
  · rw [List.chain'_map, List.chain'_range_succ]
    intro m hm
    have h1 : b - m = (b - (m + 1)) + 1 := by omega
    rw [h1]
    exact hedge _

lemma hasCycle_of_stuck {n : Nat} {matriz : List (List Int)} {acc : List Nat}
    (hne : ∃ v, v < n ∧ v ∉ acc)
    (hstuck : ∀ v, v < n → v ∉ acc → ∃ u, u < n ∧ u ∉ acc ∧ Edg matriz u v) :
    HasCycle matriz := by
  classical
  obtain ⟨v0, hv0n, hv0⟩ := hne
  have hstuck' : ∀ v : Nat, ∃ u : Nat, v < n → v ∉ acc →
      u < n ∧ u ∉ acc ∧ Edg matriz u v := by
    intro v
    by_cases h : v < n ∧ v ∉ acc
    · obtain ⟨u, hu⟩ := hstuck v h.1 h.2
      exact ⟨u, fun _ _ => hu⟩
    · exact ⟨v0, fun h1 h2 => absurd ⟨h1, h2⟩ h⟩
  set f : Nat → Nat := fun v => (hstuck' v).choose with hf_def
  have hf : ∀ v, v < n → v ∉ acc → f v < n ∧ f v ∉ acc ∧ Edg matriz (f v) v :=
    fun v h1 h2 => (hstuck' v).choose_spec h1 h2
  set seq : Nat → Nat := fun k => f^[k] v0 with hseq_def
  have hseq : ∀ k, seq k < n ∧ seq k ∉ acc := by
    intro k
    induction k with
    | zero => exact ⟨hv0n, hv0⟩
    | succ k ih =>
      have hit : seq (k + 1) = f (seq k) := Function.iterate_succ_apply' f k v0
      rw [hit]
      obtain ⟨h1, h2, _⟩ := hf (seq k) ih.1 ih.2
      exact ⟨h1, h2⟩
  have hedge : ∀ k, Edg matriz (seq (k + 1)) (seq k) := by
    intro k
    have hit : seq (k + 1) = f (seq k) := Function.iterate_succ_apply' f k v0
    rw [hit]
    exact (hf (seq k) (hseq k).1 (hseq k).2).2.2
  have hmap : ∀ k ∈ Finset.range (n + 1), seq k ∈ Finset.range n := by
    intro k _
    rw [Finset.mem_range]
    exact (hseq k).1
  have hcard : (Finset.range n).card < (Finset.range (n + 1)).card := by simp
  obtain ⟨x, hx, y, hy, hxy, hfeq⟩ :=
    Finset.exists_ne_map_eq_of_card_lt_of_maps_to hcard hmap
  rcases Nat.lt_or_ge x y with hlt | hge
  · exact hasCycle_of_seq seq hedge hlt hfeq
  · have hyx : y < x := by omega
    exact hasCycle_of_seq seq hedge hyx hfeq.symm

lemma topo_ok_of_acyclic {n : Nat} {matriz : List (List Int)} (hsq : Square n matriz)
    (hac : Acyclic matriz) : topological_order n matriz = .ok (kahnRun n matriz) := by
  obtain ⟨grau', hinv⟩ := kahn_final hsq
  by_cases hlen : (kahnRun n matriz).length = n
  · rw [topological_order_eq, if_pos hlen]
  · exfalso
    apply hac
    have hnd : (kahnRun n matriz).Nodup := by
      have := hinv.nodup
      rwa [List.append_nil] at this
    have hmemlt : ∀ x ∈ kahnRun n matriz, x < n := by
      intro x hx
      exact hinv.mem_lt x (by rw [List.append_nil]; exact hx)
    have hle := length_le_of_nodup_lt hnd hmemlt
    have hex : ∃ v, v < n ∧ v ∉ kahnRun n matriz := by
      by_contra hc
      push_neg at hc
      have hsub : Finset.range n ⊆ (kahnRun n matriz).toFinset := by
        intro x hx
        rw [List.mem_toFinset]
        exact hc x (Finset.mem_range.1 hx)
      have h1 := Finset.card_le_card hsub
      rw [Finset.card_range] at h1
      have h2 := (kahnRun n matriz).toFinset_card_le
      omega
    apply hasCycle_of_stuck hex
    intro v hv hnv
    have h0 : inCnt n matriz (kahnRun n matriz) v ≠ 0 := by
      intro h0
      have := hinv.zero_mem v hv h0
      rw [List.append_nil] at this
      exact hnv this
    obtain ⟨u, hu⟩ := Finset.card_pos.1 (Nat.pos_of_ne_zero h0)
    rw [Finset.mem_filter, Finset.mem_range] at hu
    exact ⟨u, hu.1, hu.2.2, hu.2.1⟩

lemma topo_error_of_hasCycle {n : Nat} {matriz : List (List Int)}
    (hsq : Square n matriz) (hc : HasCycle matriz) :
    topological_order n matriz = .error .cycle := by
  by_cases hlen : (kahnRun n matriz).length = n
  · exfalso
    have hok : topological_order n matriz = .ok (kahnRun n matriz) := by
      rw [topological_order_eq, if_pos hlen]
    exact acyclic_of_topo_ok hsq hok hc
  · rw [topological_order_eq, if_neg hlen]

/-! ### The relaxation pass: equations and invariants -/

lemma relaxEdge_def (orig dest : Nat) (peso : Int) (st : DPState) :
    relaxEdge orig dest peso st =
      if st.dist.getD dest ⊥ < st.dist.getD orig ⊥ + (peso : Int) then
        DPState.mk (st.dist.set dest (st.dist.getD orig ⊥ + (peso : Int)))
          (st.pred.set dest (orig : Int)) (st.preds.set dest [orig])
      else if st.dist.getD orig ⊥ + (peso : Int) = st.dist.getD dest ⊥ then
        DPState.mk st.dist
          (if st.pred.getD dest (-1) = -1 then st.pred.set dest (orig : Int) else st.pred)
          (st.preds.set dest (st.preds.getD dest [] ++ [orig]))
      else st := rfl

lemma relaxRow_cons {orig j : Nat} {peso : Int} {rest : List Int} {st : DPState} :
    relaxRow orig j (peso :: rest) st =
      relaxRow orig (j + 1) rest (if peso ≠ 0 then relaxEdge orig j peso st else st) := rfl

lemma relaxRow_nil {orig j : Nat} {st : DPState} : relaxRow orig j [] st = st := rfl

lemma processVertex_def (matriz : List (List Int)) (st : DPState) (orig : Nat) :
    processVertex matriz st orig =
      if st.dist.getD orig ⊥ = ⊥ then st
      else relaxRow orig 0 (matriz.getD orig []) st := rfl

lemma PathTo.chain' {matriz : List (List Int)} {s v : Nat} {p : List Nat}
    (hp : PathTo matriz s v p) : p.Chain' (fun a b => w matriz a b ≠ 0) := by
  induction hp with
  | nil => exact List.chain'_singleton s
  | snoc h1 h2 ih =>
    rename_i v' u' p'
    refine List.Chain'.append ih (List.chain'_singleton u') ?_
    intro x hx y hy
    rw [h1.last_eq] at hx
    rcases Option.mem_some_iff.1 hx with rfl
    simp only [List.head?_cons, Option.mem_def, Option.some_inj] at hy
    rcases hy with rfl
    exact h2

lemma hasCycle_of_path_edge {matriz : List (List Int)} {origem z : Nat} {p : List Nat}
    (hp : PathTo matriz origem z p) (he : Edg matriz z origem) : HasCycle matriz := by
  refine ⟨p ++ [origem], ?_, ?_, ?_⟩
  · have := hp.ne_nil
    have : 1 ≤ p.length := List.length_pos.2 this
    simp only [List.length_append, List.length_singleton]
    omega
  · rw [List.head?_append, hp.head_eq, List.getLast?_concat]
    rfl
  · refine List.Chain'.append hp.chain' (List.chain'_singleton origem) ?_
    intro x hx y hy
    rw [hp.last_eq] at hx
    rcases Option.mem_some_iff.1 hx with rfl
    simp only [List.head?_cons, Option.mem_def, Option.some_inj] at hy
    rcases hy with rfl
    exact he

/-- State invariant kept throughout the relaxation pass: every finite distance
is witnessed by a path, and the source's entries are never touched. -/
structure PassInv (matriz : List (List Int)) (origem : Nat) (st : DPState) : Prop where
  sound : ∀ v : Nat, ∀ x : Int, st.dist.getD v ⊥ = (x : WithBot Int) →
    ∃ p, PathTo matriz origem v p ∧ pathWeight matriz p = x
  odist : st.dist.getD origem ⊥ = ((0 : Int) : WithBot Int)
  opred : st.pred.getD origem (-1) = -1
  opreds : st.preds.getD origem [] = []

/-- Invariant after processing the prefix `done` of the topological order. -/
structure DPInv (n : Nat) (matriz : List (List Int)) (origem : Nat) (done : List Nat)
    (st : DPState) : Prop where
  dlen : st.dist.length = n
  plen : st.pred.length = n
  qlen : st.preds.length = n
  pinv : PassInv matriz origem st
  preds_iff : ∀ v, v < n → v ≠ origem → ∀ p : Nat,
    (p ∈ st.preds.getD v [] ↔ (p ∈ done ∧ Edg matriz p v ∧ st.dist.getD p ⊥ ≠ ⊥ ∧
      st.dist.getD p ⊥ + (w matriz p v : Int) = st.dist.getD v ⊥))
  pred_bot : ∀ v, v < n → v ≠ origem → st.dist.getD v ⊥ = ⊥ →
    st.pred.getD v (-1) = -1 ∧ st.preds.getD v [] = []
  pred_mem : ∀ v, v < n → v ≠ origem → st.dist.getD v ⊥ ≠ ⊥ →
    ∃ q : Nat, st.pred.getD v (-1) = (q : Int) ∧ q ∈ st.preds.getD v []
  edge_le : ∀ v p : Nat, p ∈ done → Edg matriz p v →
    st.dist.getD p ⊥ + (w matriz p v : Int) ≤ st.dist.getD v ⊥

/-- Which relaxations have already happened while scanning row `u`: all
predecessors in `done`, plus the edge `(u, v)` for columns `v` before `j`. -/
def rowCond (done : List Nat) (u j p v : Nat) : Prop :=
  p ∈ done ∨ (p = u ∧ v < j)

/-- Invariant in the middle of relaxing `u`'s row. -/
structure RowInv (n : Nat) (matriz : List (List Int)) (origem : Nat) (done : List Nat)
    (u j : Nat) (st : DPState) : Prop where
  dlen : st.dist.length = n
  plen : st.pred.length = n
  qlen : st.preds.length = n
  pinv : PassInv matriz origem st
  preds_iff : ∀ v, v < n → v ≠ origem → ∀ p : Nat,
    (p ∈ st.preds.getD v [] ↔ (rowCond done u j p v ∧ Edg matriz p v ∧
      st.dist.getD p ⊥ ≠ ⊥ ∧
      st.dist.getD p ⊥ + (w matriz p v : Int) = st.dist.getD v ⊥))
  pred_bot : ∀ v, v < n → v ≠ origem → st.dist.getD v ⊥ = ⊥ →
    st.pred.getD v (-1) = -1 ∧ st.preds.getD v [] = []
  pred_mem : ∀ v, v < n → v ≠ origem → st.dist.getD v ⊥ ≠ ⊥ →
    ∃ q : Nat, st.pred.getD v (-1) = (q : Int) ∧ q ∈ st.preds.getD v []
  edge_le : ∀ v p : Nat, rowCond done u j p v → Edg matriz p v →
    st.dist.getD p ⊥ + (w matriz p v : Int) ≤ st.dist.getD v ⊥

lemma hasCycle_self {matriz : List (List Int)} {u : Nat} (he : Edg matriz u u) :
    HasCycle matriz :=
  hasCycle_of_path_edge PathTo.nil he

/-- Changing the column marker over columns that carry no edge from `u`
preserves the row invariant. -/
lemma RowInv.congr_j {n : Nat} {matriz : List (List Int)} {origem : Nat}
    {done : List Nat} {u j j' : Nat} {st : DPState}
    (hri : RowInv n matriz origem done u j st)
    (hcond : ∀ p v : Nat, Edg matriz p v →
      (rowCond done u j' p v ↔ rowCond done u j p v)) :
    RowInv n matriz origem done u j' st := by
  refine ⟨hri.dlen, hri.plen, hri.qlen, hri.pinv, ?_, hri.pred_bot, hri.pred_mem, ?_⟩
  · intro v hv hvo p
    rw [hri.preds_iff v hv hvo p]
    constructor
    · rintro ⟨hc, he, h1, h2⟩
      exact ⟨(hcond p v he).2 hc, he, h1, h2⟩
    · rintro ⟨hc, he, h1, h2⟩
      exact ⟨(hcond p v he).1 hc, he, h1, h2⟩
  · intro v p hc he
    exact hri.edge_le v p ((hcond p v he).1 hc) he

/-- Moving the column marker forward over columns that carry no edge from `u`
preserves the row invariant. -/
lemma RowInv.mono_j {n : Nat} {matriz : List (List Int)} {origem : Nat}
    {done : List Nat} {u j j' : Nat} {st : DPState}
    (hri : RowInv n matriz origem done u j st)
    (hj : j ≤ j') (hne : ∀ x, j ≤ x → x < j' → ¬ Edg matriz u x) :
    RowInv n matriz origem done u j' st := by
  refine hri.congr_j ?_
  intro p v he
  unfold rowCond
  constructor
  · rintro (hd | ⟨rfl, hlt⟩)
    · exact Or.inl hd
    · rcases Nat.lt_or_ge v j with hv | hv
      · exact Or.inr ⟨rfl, hv⟩
      · exact absurd he (hne v hv hlt)
  · rintro (hd | ⟨rfl, hlt⟩)
    · exact Or.inl hd
    · exact Or.inr ⟨rfl, by omega⟩

lemma relaxEdge_inv {n : Nat} {matriz : List (List Int)} (hsq : Square n matriz)
    (hac : Acyclic matriz) {origem : Nat} {done : List Nat} {u : Nat}
    (hdone_nedge : ∀ k, Edg matriz u k → k ∉ done)
    {j : Nat} {peso : Int} {st : DPState}
    (hw : w matriz u j = peso) (hpeso : peso ≠ 0)
    (hu : st.dist.getD u ⊥ ≠ ⊥) (hri : RowInv n matriz origem done u j st) :
    RowInv n matriz origem done u (j + 1) (relaxEdge u j peso st) ∧
      (relaxEdge u j peso st).dist.getD u ⊥ ≠ ⊥ := by
  have he : Edg matriz u j := by rw [Edg, hw]; exact hpeso
  have he : Edg matriz u j := by rw [Edg, hw]; exact hpeso
  have hjn : j < n := (Edg.lt_n hsq he).2
  have hun : u < n := (Edg.lt_n hsq he).1
  have hju : j ≠ u := by
    rintro rfl
    exact hac (hasCycle_self he)
  obtain ⟨y, hy⟩ : ∃ y : Int, st.dist.getD u ⊥ = (y : WithBot Int) := by
    cases hb : st.dist.getD u ⊥ with
    | bot => exact absurd hb hu
    | coe y => exact ⟨y, rfl⟩
  have hjo : j ≠ origem := by
    rintro rfl
    obtain ⟨p, hp, hwt⟩ := hri.pinv.sound u y hy
    exact hac (hasCycle_of_path_edge hp he)
  have hjdone : j ∉ done := hdone_nedge j he
  have hcand : st.dist.getD u ⊥ + (peso : Int) = ((y + peso : Int) : WithBot Int) := by
    rw [hy, ← WithBot.coe_add]
  rw [relaxEdge_def]
  rcases lt_trichotomy (st.dist.getD j ⊥) (st.dist.getD u ⊥ + (peso : Int))
    with hlt | heq | hgt
  · -- strict improvement
    rw [if_pos hlt]
    have hdl : j < st.dist.length := by rw [hri.dlen]; exact hjn
    have hpl : j < st.pred.length := by rw [hri.plen]; exact hjn
    have hql : j < st.preds.length := by rw [hri.qlen]; exact hjn
    have hdist_j : (st.dist.set j (st.dist.getD u ⊥ + (peso : Int))).getD j ⊥ =
        st.dist.getD u ⊥ + (peso : Int) := getD_set_self hdl
    have hdist_ne : ∀ v : Nat, v ≠ j →
        (st.dist.set j (st.dist.getD u ⊥ + (peso : Int))).getD v ⊥ =
          st.dist.getD v ⊥ := fun v hv => getD_set_ne hv
    have hu' : (st.dist.set j (st.dist.getD u ⊥ + (peso : Int))).getD u ⊥ ≠ ⊥ := by
      rw [hdist_ne u (by omega)]
      exact hu
    refine ⟨⟨?_, ?_, ?_, ⟨?_, ?_, ?_, ?_⟩, ?_, ?_, ?_, ?_⟩, hu'⟩
    · rw [List.length_set]; exact hri.dlen
    · rw [List.length_set]; exact hri.plen
    · rw [List.length_set]; exact hri.qlen
    · -- sound
      intro v x hx
      by_cases hvj : v = j
      · subst hvj
        rw [hdist_j, hcand] at hx
        have hxeq : y + peso = x := WithBot.coe_inj.1 hx
        obtain ⟨p, hp, hwt⟩ := hri.pinv.sound u y hy
        refine ⟨p ++ [v], PathTo.snoc hp he, ?_⟩
        rw [pathWeight_snoc v hp.last_eq, hwt, hw]
        omega
      · rw [hdist_ne v hvj] at hx
        exact hri.pinv.sound v x hx
    · rw [hdist_ne origem (by omega)]
      exact hri.pinv.odist
    · rw [getD_set_ne (by omega : origem ≠ j)]
      exact hri.pinv.opred
    · rw [getD_set_ne (by omega : origem ≠ j)]
      exact hri.pinv.opreds
    · -- preds_iff
      intro v hv hvo p
      by_cases hvj : v = j
      · subst hvj
        rw [getD_set_self hql, hdist_j]
        constructor
        · intro hp
          rcases List.mem_singleton.1 hp with rfl
          refine ⟨Or.inr ⟨rfl, by omega⟩, he, ?_, ?_⟩
          · rw [hdist_ne p hju.symm]
            exact hu
          · rw [hdist_ne p hju.symm, hw]
        · rintro ⟨hc, hep, h1, h2⟩
          rcases hc with hd | ⟨rfl, _⟩
          · exfalso
            have hpj : p ≠ v := fun hcon => hjdone (hcon ▸ hd)
            rw [hdist_ne p hpj] at h2
            have hle := hri.edge_le v p (Or.inl hd) hep
            rw [h2] at hle
            exact absurd hlt (not_lt.2 hle)
          · exact List.mem_singleton.2 rfl
      · rw [getD_set_ne hvj , hdist_ne v hvj]
        by_cases hpj : p = j
        · subst hpj
          constructor
          · intro hmem
            have := (hri.preds_iff v hv hvo p).1 hmem
            rcases this.1 with hd | ⟨hpu, _⟩
            · exact absurd hd hjdone
            · exact absurd hpu hju
          · rintro ⟨hc, hep, h1, h2⟩
            rcases hc with hd | ⟨hpu, _⟩
            · exact absurd hd hjdone
            · exact absurd hpu hju
        · rw [hdist_ne p hpj]
          rw [hri.preds_iff v hv hvo p]
          constructor
          · rintro ⟨hc, hep, h1, h2⟩
            refine ⟨?_, hep, h1, h2⟩
            rcases hc with hd | ⟨rfl, hvltj⟩
            · exact Or.inl hd
            · exact Or.inr ⟨rfl, by omega⟩
          · rintro ⟨hc, hep, h1, h2⟩
            refine ⟨?_, hep, h1, h2⟩
            rcases hc with hd | ⟨rfl, hvltj⟩
            · exact Or.inl hd
            · exact Or.inr ⟨rfl, by omega⟩
      -- done with preds_iff
    · -- pred_bot
      intro v hv hvo hbot
      by_cases hvj : v = j
      · subst hvj
        rw [hdist_j, hcand] at hbot
        exact absurd hbot (WithBot.coe_ne_bot)
      · rw [hdist_ne v hvj] at hbot
        obtain ⟨h1, h2⟩ := hri.pred_bot v hv hvo hbot
        rw [getD_set_ne hvj,
          getD_set_ne hvj]
        exact ⟨h1, h2⟩
    · -- pred_mem
      intro v hv hvo hne
      by_cases hvj : v = j
      · subst hvj
        refine ⟨u, ?_, ?_⟩
        · rw [getD_set_self hpl]
        · rw [getD_set_self hql]
          exact List.mem_singleton.2 rfl
      · rw [hdist_ne v hvj] at hne
        obtain ⟨q, h1, h2⟩ := hri.pred_mem v hv hvo hne
        refine ⟨q, ?_, ?_⟩
        · rw [getD_set_ne hvj]
          exact h1
        · rw [getD_set_ne hvj]
          exact h2
    · -- edge_le
      intro v p hc hep
      by_cases hvj : v = j
      · subst hvj
        rw [hdist_j]
        rcases hc with hd | ⟨rfl, _⟩
        · have hpj : p ≠ v := fun hcon => hjdone (hcon ▸ hd)
          rw [hdist_ne p hpj]
          exact le_of_lt (lt_of_le_of_lt (hri.edge_le v p (Or.inl hd) hep) hlt)
        · rw [hdist_ne p (Ne.symm hju), hw]
      · rw [hdist_ne v hvj]
        by_cases hpj : p = j
        · subst hpj
          exfalso
          rcases hc with hd | ⟨hpu, _⟩
          · exact hjdone hd
          · exact hju hpu
        · rw [hdist_ne p hpj]
          refine hri.edge_le v p ?_ hep
          rcases hc with hd | ⟨rfl, hvlt⟩
          · exact Or.inl hd
          · exact Or.inr ⟨rfl, by omega⟩
  · -- tie
    have hnlt : ¬ st.dist.getD j ⊥ < st.dist.getD u ⊥ + (peso : Int) := by
      rw [heq]
      exact lt_irrefl _
    rw [if_neg hnlt, if_pos heq.symm]
    have hql : j < st.preds.length := by rw [hri.qlen]; exact hjn
    have hdvne : st.dist.getD j ⊥ ≠ ⊥ := by
      rw [heq, hcand]
      exact WithBot.coe_ne_bot
    obtain ⟨q, hq, hqmem⟩ := hri.pred_mem j hjn hjo hdvne
    have hpredne : st.pred.getD j (-1) ≠ -1 := by
      rw [hq]
      intro hcon
      omega
    rw [if_neg hpredne]
    have hpreds_j : (st.preds.set j (st.preds.getD j [] ++ [u])).getD j [] =
        st.preds.getD j [] ++ [u] := getD_set_self hql
    have hpreds_ne : ∀ v : Nat, v ≠ j →
        (st.preds.set j (st.preds.getD j [] ++ [u])).getD v [] =
          st.preds.getD v [] := fun v hv => getD_set_ne hv
    refine ⟨⟨hri.dlen, hri.plen, ?_, ⟨hri.pinv.sound, hri.pinv.odist, hri.pinv.opred, ?_⟩,
      ?_, ?_, ?_, ?_⟩, hu⟩
    · rw [List.length_set]; exact hri.qlen
    · rw [hpreds_ne origem (by omega)]
      exact hri.pinv.opreds
    · -- preds_iff
      intro v hv hvo p
      by_cases hvj : v = j
      · subst hvj
        rw [hpreds_j]
        constructor
        · intro hmem
          rcases List.mem_append.1 hmem with hmem | hmem
          · obtain ⟨hc, hep, h1, h2⟩ := (hri.preds_iff v hv hvo p).1 hmem
            refine ⟨?_, hep, h1, h2⟩
            rcases hc with hd | ⟨rfl, hvlt⟩
            · exact Or.inl hd
            · exact Or.inr ⟨rfl, by omega⟩
          · rcases List.mem_singleton.1 hmem with rfl
            refine ⟨Or.inr ⟨rfl, by omega⟩, he, hu, ?_⟩
            rw [hw]
            exact heq.symm
        · rintro ⟨hc, hep, h1, h2⟩
          rcases hc with hd | ⟨rfl, _⟩
          · exact List.mem_append.2 (Or.inl
              ((hri.preds_iff v hv hvo p).2 ⟨Or.inl hd, hep, h1, h2⟩))
          · exact List.mem_append.2 (Or.inr (List.mem_singleton.2 rfl))
      · rw [hpreds_ne v hvj]
        rw [hri.preds_iff v hv hvo p]
        constructor
        · rintro ⟨hc, hep, h1, h2⟩
          refine ⟨?_, hep, h1, h2⟩
          rcases hc with hd | ⟨rfl, hvlt⟩
          · exact Or.inl hd
          · exact Or.inr ⟨rfl, by omega⟩
        · rintro ⟨hc, hep, h1, h2⟩
          refine ⟨?_, hep, h1, h2⟩
          rcases hc with hd | ⟨rfl, hvlt⟩
          · exact Or.inl hd
          · exact Or.inr ⟨rfl, by omega⟩
    · -- pred_bot
      intro v hv hvo hbot
      by_cases hvj : v = j
      · subst hvj
        exact absurd hbot hdvne
      · obtain ⟨h1, h2⟩ := hri.pred_bot v hv hvo hbot
        rw [hpreds_ne v hvj]
        exact ⟨h1, h2⟩
    · -- pred_mem
      intro v hv hvo hne
      by_cases hvj : v = j
      · subst hvj
        refine ⟨q, hq, ?_⟩
        rw [hpreds_j]
        exact List.mem_append.2 (Or.inl hqmem)
      · obtain ⟨q', h1, h2⟩ := hri.pred_mem v hv hvo hne
        refine ⟨q', h1, ?_⟩
        rw [hpreds_ne v hvj]
        exact h2
    · -- edge_le
      intro v p hc hep
      rcases hc with hd | ⟨rfl, hvlt⟩
      · exact hri.edge_le v p (Or.inl hd) hep
      · by_cases hvj : v = j
        · subst hvj
          rw [hw]
          exact le_of_eq heq.symm
        · exact hri.edge_le v p (Or.inr ⟨rfl, by omega⟩) hep
  · -- no improvement
    have hnlt : ¬ st.dist.getD j ⊥ < st.dist.getD u ⊥ + (peso : Int) :=
      not_lt.2 (le_of_lt hgt)
    have hne : ¬ st.dist.getD u ⊥ + (peso : Int) = st.dist.getD j ⊥ :=
      ne_of_lt hgt
    rw [if_neg hnlt, if_neg hne]
    refine ⟨⟨hri.dlen, hri.plen, hri.qlen, hri.pinv, ?_, hri.pred_bot, hri.pred_mem, ?_⟩, hu⟩
    · intro v hv hvo p
      rw [hri.preds_iff v hv hvo p]
      constructor
      · rintro ⟨hc, hep, h1, h2⟩
        refine ⟨?_, hep, h1, h2⟩
        rcases hc with hd | ⟨rfl, hvlt⟩
        · exact Or.inl hd
        · exact Or.inr ⟨rfl, by omega⟩
      · rintro ⟨hc, hep, h1, h2⟩
        refine ⟨?_, hep, h1, h2⟩
        rcases hc with hd | ⟨rfl, hvlt⟩
        · exact Or.inl hd
        · by_cases hvj : v = j
          · subst hvj
            exfalso
            rw [hw] at h2
            exact hne h2
          · exact Or.inr ⟨rfl, by omega⟩
    · intro v p hc hep
      rcases hc with hd | ⟨rfl, hvlt⟩
      · exact hri.edge_le v p (Or.inl hd) hep
      · by_cases hvj : v = j
        · subst hvj
          rw [hw]
          exact le_of_lt hgt
        · exact hri.edge_le v p (Or.inr ⟨rfl, by omega⟩) hep

lemma relaxRow_inv {n : Nat} {matriz : List (List Int)} (hsq : Square n matriz)
    (hac : Acyclic matriz) {origem : Nat} {done : List Nat} {u : Nat}
    (hu_ndone : u ∉ done) (hdone_nedge : ∀ k, Edg matriz u k → k ∉ done) :
    ∀ row j st, (matriz.getD u []).drop j = row →
      st.dist.getD u ⊥ ≠ ⊥ →
      RowInv n matriz origem done u j st →
      RowInv n matriz origem done u n (relaxRow u j row st) := by
  intro row
  induction row with
  | nil =>
    intro j st hdrop hu hri
    rw [relaxRow_nil]
    refine hri.congr_j ?_
    intro p v he
    have hrow := he.lt_rowlen
    have hje := List.drop_eq_nil_iff.1 hdrop
    unfold rowCond
    constructor
    · rintro (hd | ⟨rfl, hlt⟩)
      · exact Or.inl hd
      · exact Or.inr ⟨rfl, by omega⟩
    · rintro (hd | ⟨rfl, hlt⟩)
      · exact Or.inl hd
      · exact Or.inr ⟨rfl, (Edg.lt_n hsq he).2⟩
  | cons peso rest ih =>
    intro j st hdrop hu hri
    obtain ⟨hw, hdrop', hjlen⟩ := drop_head_w hdrop
    rw [relaxRow_cons]
    by_cases hpeso : peso ≠ 0
    · rw [if_pos hpeso]
      obtain ⟨hri2, hu2⟩ := relaxEdge_inv hsq hac hdone_nedge hw hpeso hu hri
      exact ih (j + 1) _ hdrop' hu2 hri2
    · rw [if_neg hpeso]
      push_neg at hpeso
      refine ih (j + 1) _ hdrop' hu ?_
      refine hri.mono_j (by omega) ?_
      intro x hx hxlt hex
      have hxj : x = j := by omega
      subst hxj
      rw [Edg, hw] at hex
      exact hex hpeso

lemma split_getElem {done rest : List Nat} {u : Nat} :
    (done ++ u :: rest)[done.length]? = some u := by
  rw [List.getElem?_append_right (le_refl done.length)]
  simp

lemma mem_done_of_before {done rest : List Nat} {u p : Nat}
    (hnd : (done ++ u :: rest).Nodup) (hb : Before (done ++ u :: rest) p u) :
    p ∈ done := by
  obtain ⟨i, j, hij, hi, hj⟩ := hb
  have hjlen : j < (done ++ u :: rest).length := (List.getElem?_eq_some.1 hj).1
  have hje : j = done.length :=
    List.getElem?_inj hjlen hnd (hj.trans split_getElem.symm)
  have hilt : i < done.length := by omega
  rw [List.getElem?_append_left hilt] at hi
  obtain ⟨hb2, hval⟩ := List.getElem?_eq_some.1 hi
  exact hval ▸ List.getElem_mem hb2

lemma processVertex_inv {n : Nat} {matriz : List (List Int)} (hsq : Square n matriz)
    (hac : Acyclic matriz) {origem : Nat} {ordem done rest : List Nat} {u : Nat}
    (hord : ordem = done ++ u :: rest) (hnd : ordem.Nodup)
    (hresp : ∀ a b, a < n → Edg matriz a b → b ∈ ordem → Before ordem a b)
    (hmemord : ∀ x ∈ ordem, x < n)
    {st : DPState} (hdp : DPInv n matriz origem done st) :
    DPInv n matriz origem (done ++ [u]) (processVertex matriz st u) := by
  have hu_mem : u ∈ ordem := by
    rw [hord]
    exact List.mem_append.2 (Or.inr (List.mem_cons_self u rest))
  have hun : u < n := hmemord u hu_mem
  have hu_ndone : u ∉ done := by
    intro hin
    rw [hord, List.nodup_append] at hnd
    exact hnd.2.2 hin (List.mem_cons_self u rest)
  have hdone_nedge : ∀ k, Edg matriz u k → k ∉ done := by
    intro k he hk
    have hkord : k ∈ ordem := by
      rw [hord]
      exact List.mem_append.2 (Or.inl hk)
    have hb := hresp u k hun he hkord
    obtain ⟨i, j, hij, hi, hj⟩ := hb
    rw [hord] at hi hj
    have hndA : (done ++ u :: rest).Nodup := hord ▸ hnd
    have hilen : i < (done ++ u :: rest).length := (List.getElem?_eq_some.1 hi).1
    have hie : i = done.length :=
      List.getElem?_inj hilen hndA (hi.trans split_getElem.symm)
    obtain ⟨j0, hj0lt, hj0val⟩ := List.getElem_of_mem hk
    have hj0 : (done ++ u :: rest)[j0]? = some k := by
      rw [List.getElem?_append_left hj0lt, List.getElem?_eq_getElem hj0lt, hj0val]
    have hjlen : j < (done ++ u :: rest).length := (List.getElem?_eq_some.1 hj).1
    have hje : j = j0 := List.getElem?_inj hjlen hndA (hj.trans hj0.symm)
    omega
  rw [processVertex_def]
  by_cases hskip : st.dist.getD u ⊥ = ⊥
  · rw [if_pos hskip]
    refine ⟨hdp.dlen, hdp.plen, hdp.qlen, hdp.pinv, ?_, hdp.pred_bot, hdp.pred_mem, ?_⟩
    · intro v hv hvo p
      rw [hdp.preds_iff v hv hvo p]
      constructor
      · rintro ⟨hd, hep, h1, h2⟩
        exact ⟨List.mem_append.2 (Or.inl hd), hep, h1, h2⟩
      · rintro ⟨hd, hep, h1, h2⟩
        rcases List.mem_append.1 hd with hd | hd
        · exact ⟨hd, hep, h1, h2⟩
        · rcases List.mem_singleton.1 hd with rfl
          exact absurd hskip h1
    · intro v p hp hep
      rcases List.mem_append.1 hp with hd | hd
      · exact hdp.edge_le v p hd hep
      · rcases List.mem_singleton.1 hd with rfl
        rw [hskip, WithBot.bot_add]
        exact bot_le
  · rw [if_neg hskip]
    have hri0 : RowInv n matriz origem done u 0 st := by
      refine ⟨hdp.dlen, hdp.plen, hdp.qlen, hdp.pinv, ?_, hdp.pred_bot, hdp.pred_mem, ?_⟩
      · intro v hv hvo p
        rw [hdp.preds_iff v hv hvo p]
        constructor
        · rintro ⟨hd, hep, h1, h2⟩
          exact ⟨Or.inl hd, hep, h1, h2⟩
        · rintro ⟨hc, hep, h1, h2⟩
          rcases hc with hd | ⟨_, hlt⟩
          · exact ⟨hd, hep, h1, h2⟩
          · omega
      · intro v p hc hep
        rcases hc with hd | ⟨_, hlt⟩
        · exact hdp.edge_le v p hd hep
        · omega
    have hrow := relaxRow_inv hsq hac hu_ndone hdone_nedge (matriz.getD u []) 0 st
      (List.drop_zero _) hskip hri0
    refine ⟨hrow.dlen, hrow.plen, hrow.qlen, hrow.pinv, ?_, hrow.pred_bot,
      hrow.pred_mem, ?_⟩
    · intro v hv hvo p
      rw [hrow.preds_iff v hv hvo p]
      constructor
      · rintro ⟨hc, hep, h1, h2⟩
        refine ⟨?_, hep, h1, h2⟩
        rcases hc with hd | ⟨rfl, _⟩
        · exact List.mem_append.2 (Or.inl hd)
        · exact List.mem_append.2 (Or.inr (List.mem_singleton.2 rfl))
      · rintro ⟨hd, hep, h1, h2⟩
        refine ⟨?_, hep, h1, h2⟩
        rcases List.mem_append.1 hd with hd | hd
        · exact Or.inl hd
        · rcases List.mem_singleton.1 hd with rfl
          exact Or.inr ⟨rfl, hv⟩
    · intro v p hp hep
      refine hrow.edge_le v p ?_ hep
      rcases List.mem_append.1 hp with hd | hd
      · exact Or.inl hd
      · rcases List.mem_singleton.1 hd with rfl
        exact Or.inr ⟨rfl, (Edg.lt_n hsq hep).2⟩

lemma runPass_inv {n : Nat} {matriz : List (List Int)} (hsq : Square n matriz)
    (hac : Acyclic matriz) {origem : Nat} {ordem : List Nat}
    (hnd : ordem.Nodup)
    (hresp : ∀ a b, a < n → Edg matriz a b → b ∈ ordem → Before ordem a b)
    (hmemord : ∀ x ∈ ordem, x < n) :
    ∀ todo done st, ordem = done ++ todo → DPInv n matriz origem done st →
      DPInv n matriz origem ordem (todo.foldl (processVertex matriz) st) := by
  intro todo
  induction todo with
  | nil =>
    intro done st hord hdp
    rw [List.foldl_nil]
    rw [List.append_nil] at hord
    rw [hord]
    exact hdp
  | cons u rest ih =>
    intro done st hord hdp
    rw [List.foldl_cons]
    refine ih (done ++ [u]) _ (by rw [hord]; simp) ?_
    exact processVertex_inv hsq hac hord hnd hresp hmemord hdp

lemma pyIdx_coe {len s : Nat} (hs : s < len) : pyIdx len (s : Int) = some s := by
  unfold pyIdx
  rw [if_pos ⟨Int.natCast_nonneg s, by exact_mod_cast hs⟩]
  simp

lemma pySet_coe {α : Type} {xs : List α} {s : Nat} {v : α} (hs : s < xs.length) :
    pySet xs (s : Int) v = some (xs.set s v) := by
  unfold pySet
  rw [pyIdx_coe hs]
  rfl

lemma pyGet_coe {α : Type} {xs : List α} {s : Nat} (hs : s < xs.length) :
    pyGet xs (s : Int) = xs[s]? := by
  unfold pyGet
  rw [pyIdx_coe hs]
  simp [List.get?_eq_getElem?]

lemma DPInv_init {n : Nat} {matriz : List (List Int)} {origem : Nat} (ho : origem < n) :
    DPInv n matriz origem []
      (DPState.mk ((List.replicate n (⊥ : WithBot Int)).set origem ((0 : Int) : WithBot Int))
        (List.replicate n (-1 : Int)) (List.replicate n ([] : List Nat))) := by
  have hrl : (List.replicate n (⊥ : WithBot Int)).length = n := List.length_replicate n _
  have hdist_o : ((List.replicate n (⊥ : WithBot Int)).set origem
      ((0 : Int) : WithBot Int)).getD origem ⊥ = ((0 : Int) : WithBot Int) :=
    getD_set_self (by rw [hrl]; exact ho)
  have hdist_ne : ∀ v : Nat, v ≠ origem →
      ((List.replicate n (⊥ : WithBot Int)).set origem
        ((0 : Int) : WithBot Int)).getD v ⊥ = ⊥ := by
    intro v hv
    rw [getD_set_ne hv]
    rcases Nat.lt_or_ge v n with h | h
    · exact getD_replicate h
    · exact getD_oob (by rw [List.length_replicate]; exact h)
  refine ⟨?_, ?_, ?_, ⟨?_, hdist_o, ?_, ?_⟩, ?_, ?_, ?_, ?_⟩
  · rw [List.length_set]; exact hrl
  · exact List.length_replicate n _
  · exact List.length_replicate n _
  · intro v x hx
    by_cases hvo : v = origem
    · subst hvo
      rw [hdist_o] at hx
      have : (0 : Int) = x := WithBot.coe_inj.1 hx
      subst this
      exact ⟨[v], PathTo.nil, rfl⟩
    · rw [hdist_ne v hvo] at hx
      exact absurd hx.symm WithBot.coe_ne_bot
  · rcases Nat.lt_or_ge origem n with h | h
    · exact getD_replicate h
    · exact getD_oob (by rw [List.length_replicate]; exact h)
  · rcases Nat.lt_or_ge origem n with h | h
    · exact getD_replicate h
    · exact getD_oob (by rw [List.length_replicate]; exact h)
  · intro v hv hvo p
    constructor
    · intro hp
      exfalso
      have hpreds : (List.replicate n ([] : List Nat)).getD v [] = [] := by
        rcases Nat.lt_or_ge v n with h | h
        · exact getD_replicate h
        · exact getD_oob (by rw [List.length_replicate]; exact h)
      rw [hpreds] at hp
      exact List.not_mem_nil p hp
    · rintro ⟨hd, _, _, _⟩
      exact absurd hd (List.not_mem_nil p)
  · intro v hv hvo _
    constructor
    · rcases Nat.lt_or_ge v n with h | h
      · exact getD_replicate h
      · exact getD_oob (by rw [List.length_replicate]; exact h)
    · rcases Nat.lt_or_ge v n with h | h
      · exact getD_replicate h
      · exact getD_oob (by rw [List.length_replicate]; exact h)
  · intro v hv hvo hne
    exact absurd (hdist_ne v hvo) hne
  · intro v p hp _
    exact absurd hp (List.not_mem_nil p)

lemma weight_le_dist {n : Nat} {matriz : List (List Int)} (hsq : Square n matriz)
    {origem : Nat} {ordem : List Nat} {st : DPState}
    (hdp : DPInv n matriz origem ordem st) (hcov : ∀ x, x < n → x ∈ ordem) :
    ∀ {v : Nat} {p : List Nat}, PathTo matriz origem v p →
      ((pathWeight matriz p : Int) : WithBot Int) ≤ st.dist.getD v ⊥ := by
  intro v p hp
  induction hp with
  | nil =>
    rw [hdp.pinv.odist]
    exact le_refl _
  | snoc hp' he ih =>
    rename_i z u' p'
    rw [pathWeight_snoc u' hp'.last_eq, WithBot.coe_add]
    have hz : z < n := (Edg.lt_n hsq he).1
    calc ((pathWeight matriz p' : Int) : WithBot Int) + ((w matriz z u' : Int) : WithBot Int)
        ≤ st.dist.getD z ⊥ + ((w matriz z u' : Int) : WithBot Int) :=
          add_le_add_right ih _
      _ ≤ st.dist.getD u' ⊥ := hdp.edge_le u' z (hcov z hz) he

/-- The working arrays as initialised at `src/main.py` lines 96–99 for an
in-range source. -/
def initState (n : Nat) (origem : Nat) : DPState :=
  DPState.mk ((List.replicate n (⊥ : WithBot Int)).set origem ((0 : Int) : WithBot Int))
    (List.replicate n (-1 : Int)) (List.replicate n ([] : List Nat))

lemma final_DPInv {n : Nat} {matriz : List (List Int)} {ordem : List Nat}
    (hsq : Square n matriz) {origem : Nat} (ho : origem < n)
    (htopo : topological_order n matriz = .ok ordem) :
    DPInv n matriz origem ordem (runPass matriz ordem (initState n origem)) := by
  obtain ⟨hlen, hnd, hmemlt, hresp, hperm⟩ := topo_ok_spec hsq htopo
  have hac := acyclic_of_topo_ok hsq htopo
  exact runPass_inv hsq hac hnd hresp hmemlt ordem [] _ (by simp) (DPInv_init ho)

lemma topo_cov {n : Nat} {matriz : List (List Int)} {ordem : List Nat}
    (hsq : Square n matriz) (htopo : topological_order n matriz = .ok ordem) :
    ∀ x, x < n → x ∈ ordem := by
  obtain ⟨_, _, _, _, hperm⟩ := topo_ok_spec hsq htopo
  intro x hx
  exact hperm.symm.subset (List.mem_range.2 hx)

lemma pyGetD_coe {α : Type} {xs : List α} {d : α} {s : Nat} (hs : s < xs.length) :
    pyGetD xs d (s : Int) = xs.getD s d := by
  unfold pyGetD
  rw [pyGet_coe hs, List.getD_eq_getElem?_getD]

lemma pyGet_eq_some {α : Type} {xs : List α} {d : α} {s : Nat} (hs : s < xs.length) :
    pyGet xs (s : Int) = some (xs.getD s d) := by
  rw [pyGet_coe hs, List.getD_eq_getElem?_getD, List.getElem?_eq_getElem hs]
  rfl

/-! ### The recurrence value is the maximum over in-edges -/

lemma foldl_max_acc_le (c : Nat → Prop) [DecidablePred c] (f : Nat → WithBot Int) :
    ∀ (l : List Nat) (acc : WithBot Int),
      acc ≤ l.foldl (fun a p => if c p then max a (f p) else a) acc := by
  intro l
  induction l with
  | nil => intro acc; exact le_refl _
  | cons p rest ih =>
    intro acc
    rw [List.foldl_cons]
    refine le_trans ?_ (ih _)
    by_cases hc : c p
    · rw [if_pos hc]; exact le_max_left _ _
    · rw [if_neg hc]

lemma foldl_max_le (c : Nat → Prop) [DecidablePred c] (f : Nat → WithBot Int) :
    ∀ (l : List Nat) (acc b : WithBot Int), acc ≤ b → (∀ p ∈ l, c p → f p ≤ b) →
      l.foldl (fun a p => if c p then max a (f p) else a) acc ≤ b := by
  intro l
  induction l with
  | nil => intro acc b ha _; exact ha
  | cons p rest ih =>
    intro acc b ha hf
    rw [List.foldl_cons]
    refine ih _ b ?_ (fun p2 hp2 hc2 => hf p2 (List.mem_cons_of_mem p hp2) hc2)
    by_cases hc : c p
    · rw [if_pos hc]
      exact max_le ha (hf p (List.mem_cons_self p rest) hc)
    · rw [if_neg hc]
      exact ha

lemma le_foldl_max (c : Nat → Prop) [DecidablePred c] (f : Nat → WithBot Int) :
    ∀ (l : List Nat) (acc : WithBot Int) (z : Nat), z ∈ l → c z →
      f z ≤ l.foldl (fun a p => if c p then max a (f p) else a) acc := by
  intro l
  induction l with
  | nil => intro acc z hz; exact absurd hz (List.not_mem_nil z)
  | cons p rest ih =>
    intro acc z hz hc
    rw [List.foldl_cons]
    rcases List.mem_cons.1 hz with rfl | hz
    · rw [if_pos hc]
      refine le_trans (le_max_right _ _) (foldl_max_acc_le c f rest _)
    · exact ih _ z hz hc

lemma recurVal_le {n : Nat} {matriz : List (List Int)} {dist : List (WithBot Int)}
    {v : Nat} {b : WithBot Int}
    (h : ∀ p, p < n → Edg matriz p v → dist.getD p ⊥ + (w matriz p v : Int) ≤ b) :
    recurVal n matriz dist v ≤ b := by
  unfold recurVal
  refine foldl_max_le (fun p => w matriz p v ≠ 0)
    (fun p => dist.getD p ⊥ + (w matriz p v : Int)) (List.range n) ⊥ b bot_le ?_
  intro p hp hc
  exact h p (List.mem_range.1 hp) hc

lemma le_recurVal {n : Nat} {matriz : List (List Int)} {dist : List (WithBot Int)}
    {v z : Nat} (hz : z < n) (he : Edg matriz z v) :
    dist.getD z ⊥ + (w matriz z v : Int) ≤ recurVal n matriz dist v := by
  unfold recurVal
  exact le_foldl_max (fun p => w matriz p v ≠ 0)
    (fun p => dist.getD p ⊥ + (w matriz p v : Int)) (List.range n) ⊥ z
    (List.mem_range.2 hz) he

/-- A path from the source to a vertex other than the source ends with an
edge into it. -/
lemma PathTo.inv_snoc {matriz : List (List Int)} {origem v : Nat} {p : List Nat}
    (hp : PathTo matriz origem v p) (hne : v ≠ origem) :
    ∃ z q, PathTo matriz origem z q ∧ Edg matriz z v ∧ p = q ++ [v] := by
  cases hp with
  | nil => exact absurd rfl hne
  | snoc h1 h2 => exact ⟨_, _, h1, h2, rfl⟩

/-- On an acyclic graph the only path from the source to itself is trivial. -/
lemma PathTo.self_eq {matriz : List (List Int)} (hac : Acyclic matriz) {origem : Nat}
    {p : List Nat} (hp : PathTo matriz origem origem p) : p = [origem] := by
  cases hp with
  | nil => rfl
  | snoc h1 h2 => exact absurd (hasCycle_of_path_edge h1 h2) hac

/-- Final distances: `⊥` exactly on the unreachable vertices, and otherwise
the exact maximum path weight. -/
lemma dist_bot_iff {n : Nat} {matriz : List (List Int)} {ordem : List Nat}
    (hsq : Square n matriz) {origem : Nat} {st : DPState}
    (hdp : DPInv n matriz origem ordem st) (hcov : ∀ x, x < n → x ∈ ordem) {v : Nat} :
    st.dist.getD v ⊥ = ⊥ ↔ ¬ ∃ p, PathTo matriz origem v p := by
  constructor
  · rintro hbot ⟨p, hp⟩
    have := weight_le_dist hsq hdp hcov hp
    rw [hbot] at this
    exact absurd (le_bot_iff.1 this) WithBot.coe_ne_bot
  · intro hnp
    by_contra hne
    obtain ⟨x, hx⟩ : ∃ x : Int, st.dist.getD v ⊥ = (x : WithBot Int) := by
      cases hb : st.dist.getD v ⊥ with
      | bot => exact absurd hb hne
      | coe y => exact ⟨y, rfl⟩
    obtain ⟨p, hp, _⟩ := hdp.pinv.sound v x hx
    exact hnp ⟨p, hp⟩

lemma dist_eq_max {n : Nat} {matriz : List (List Int)} {ordem : List Nat}
    (hsq : Square n matriz) {origem : Nat} {st : DPState}
    (hdp : DPInv n matriz origem ordem st) (hcov : ∀ x, x < n → x ∈ ordem)
    {v : Nat} {x : Int} (hx : st.dist.getD v ⊥ = (x : WithBot Int)) :
    (∃ p, PathTo matriz origem v p ∧ pathWeight matriz p = x) ∧
      ∀ p, PathTo matriz origem v p → pathWeight matriz p ≤ x := by
  refine ⟨hdp.pinv.sound v x hx, ?_⟩
  intro p hp
  have := weight_le_dist hsq hdp hcov hp
  rw [hx] at this
  exact_mod_cast this

/-- The final distance of a non-source vertex satisfies the spec's
per-vertex recurrence. -/
lemma dist_eq_recurVal {n : Nat} {matriz : List (List Int)} {ordem : List Nat}
    (hsq : Square n matriz) {origem : Nat} {st : DPState}
    (hdp : DPInv n matriz origem ordem st) (hcov : ∀ x, x < n → x ∈ ordem)
    {v : Nat} (hvo : v ≠ origem) :
    st.dist.getD v ⊥ = recurVal n matriz st.dist v := by
  refine le_antisymm ?_ ?_
  · cases hb : st.dist.getD v ⊥ with
    | bot => exact bot_le
    | coe x =>
      obtain ⟨p, hp, hwt⟩ := hdp.pinv.sound v x hb
      obtain ⟨z, q, hq, he, rfl⟩ := hp.inv_snoc hvo
      have hz : z < n := (Edg.lt_n hsq he).1
      have hle1 : ((pathWeight matriz q : Int) : WithBot Int) ≤ st.dist.getD z ⊥ :=
        weight_le_dist hsq hdp hcov hq
      have hle2 : ((x : Int) : WithBot Int) ≤ st.dist.getD z ⊥ + (w matriz z v : Int) := by
        rw [← hwt, pathWeight_snoc v hq.last_eq, WithBot.coe_add]
        exact add_le_add_right hle1 _
      exact le_trans hle2 (le_recurVal hz he)
  · refine recurVal_le ?_
    intro p hp he
    exact hdp.edge_le v p (hcov p hp) he

/-- Final single-witness predecessors: `-1` exactly at the source and the
unreachable vertices. -/
lemma pred_neg_one_iff {n : Nat} {matriz : List (List Int)} {ordem : List Nat}
    {origem : Nat} {st : DPState} (hdp : DPInv n matriz origem ordem st)
    {v : Nat} (hv : v < n) :
    st.pred.getD v (-1) = -1 ↔ (v = origem ∨ st.dist.getD v ⊥ = ⊥) := by
  constructor
  · intro h
    by_cases hvo : v = origem
    · exact Or.inl hvo
    · right
      by_contra hne
      obtain ⟨q, hq, _⟩ := hdp.pred_mem v hv hvo hne
      rw [hq] at h
      omega
  · rintro (rfl | hbot)
    · exact hdp.pinv.opred
    · by_cases hvo : v = origem
      · subst hvo
        exact hdp.pinv.opred
      · exact (hdp.pred_bot v hv hvo hbot).1

lemma exists_coe_of_ne_bot {a : WithBot Int} (h : a ≠ ⊥) :
    ∃ y : Int, a = (y : WithBot Int) := by
  cases a with
  | bot => exact absurd rfl h
  | coe y => exact ⟨y, rfl⟩

lemma index_of_pred {n : Nat} {matriz : List (List Int)} {ordem : List Nat}
    (hnd : ordem.Nodup)
    (hresp : ∀ a b, a < n → Edg matriz a b → b ∈ ordem → Before ordem a b)
    {i v : Nat} (hv : ordem[i]? = some v)
    {p : Nat} (hpn : p < n) (he : Edg matriz p v) :
    ∃ ip, ip < i ∧ ordem[ip]? = some p := by
  have hvmem : v ∈ ordem := by
    obtain ⟨hb, hval⟩ := List.getElem?_eq_some.1 hv
    exact hval ▸ List.getElem_mem hb
  obtain ⟨i', j', hij, hi', hj'⟩ := hresp p v hpn he hvmem
  have hjlen : j' < ordem.length := (List.getElem?_eq_some.1 hj').1
  have hji : j' = i := List.getElem?_inj hjlen hnd (hj'.trans hv.symm)
  exact ⟨i', by omega, hi'⟩

lemma chain_succ {pred : List Int} {fuel : Nat} {cur : Int} :
    chain pred (fuel + 1) cur =
      if cur = -1 then [] else cur :: chain pred fuel (pyGetD pred (-1) cur) := rfl

lemma chain_neg_one {pred : List Int} : ∀ fuel, chain pred fuel (-1) = [] := by
  intro fuel
  cases fuel with
  | zero => rfl
  | succ f => rw [chain_succ, if_pos rfl]

/-- Vertex lists of the program are Python lists of ints; paths computed on
`Nat` vertices are compared after this embedding. -/
def liftP (q : List Nat) : List Int := q.map (fun (k : Nat) => (k : Int))

/-- The single-witness predecessor chain, reversed, is an optimal path. -/
lemma chain_spec {n : Nat} {matriz : List (List Int)} {ordem : List Nat} {origem : Nat}
    {st : DPState} (hsq : Square n matriz) (hnd : ordem.Nodup)
    (hresp : ∀ a b, a < n → Edg matriz a b → b ∈ ordem → Before ordem a b)
    (hmemord : ∀ x ∈ ordem, x < n)
    (hdp : DPInv n matriz origem ordem st) :
    ∀ i v, ordem[i]? = some v → ∀ x : Int, st.dist.getD v ⊥ = (x : WithBot Int) →
      ∀ fuel, i < fuel →
        ∃ q, PathTo matriz origem v q ∧ pathWeight matriz q = x ∧
          chain st.pred fuel (v : Int) = liftP q.reverse := by
  intro i
  induction i using Nat.strong_induction_on with
  | _ i ih =>
    intro v hv x hx fuel hfuel
    obtain ⟨fuel, rfl⟩ : ∃ f, fuel = f + 1 := ⟨fuel - 1, by omega⟩
    rw [chain_succ]
    have hvne : (v : Int) ≠ -1 := by omega
    rw [if_neg hvne]
    have hvn : v < n := by
      obtain ⟨hb, hval⟩ := List.getElem?_eq_some.1 hv
      exact hmemord v (hval ▸ List.getElem_mem hb)
    by_cases hvo : v = origem
    · subst hvo
      have hpred : pyGetD st.pred (-1) (v : Int) = -1 := by
        rw [pyGetD_coe (by rw [hdp.plen]; exact hvn)]
        exact hdp.pinv.opred
      rw [hpred, chain_neg_one]
      have hx0 : x = 0 := by
        have h0 := hdp.pinv.odist
        rw [hx] at h0
        exact WithBot.coe_inj.1 h0
      refine ⟨[v], PathTo.nil, by rw [hx0]; rfl, rfl⟩
    · have hnbot : st.dist.getD v ⊥ ≠ ⊥ := by rw [hx]; exact WithBot.coe_ne_bot
      obtain ⟨q0, hq0, hq0mem⟩ := hdp.pred_mem v hvn hvo hnbot
      obtain ⟨hq0done, heq0, hq0ne, hq0eq⟩ := (hdp.preds_iff v hvn hvo q0).1 hq0mem
      obtain ⟨y, hy⟩ := exists_coe_of_ne_bot hq0ne
      have hq0n : q0 < n := (Edg.lt_n hsq heq0).1
      obtain ⟨iq, hiq, hiq_val⟩ := index_of_pred hnd hresp hv hq0n heq0
      have hpred : pyGetD st.pred (-1) (v : Int) = (q0 : Int) := by
        rw [pyGetD_coe (by rw [hdp.plen]; exact hvn)]
        exact hq0
      rw [hpred]
      obtain ⟨q, hq, hqw, hqc⟩ := ih iq hiq q0 hiq_val y hy fuel (by omega)
      refine ⟨q ++ [v], PathTo.snoc hq heq0, ?_, ?_⟩
      · rw [pathWeight_snoc v hq.last_eq, hqw]
        rw [hy, hx, ← WithBot.coe_add] at hq0eq
        exact WithBot.coe_inj.1 hq0eq
      · rw [hqc, List.reverse_append]
        simp [liftP]

lemma build_succ {preds : List (List Nat)} {origem : Int} {fuel : Nat} {u : Int} :
    build preds origem (fuel + 1) u =
      if u = origem then [[origem]]
      else (pyGetD preds [] u).foldl
        (fun acc (p : Nat) => acc ++ (build preds origem fuel (p : Int)).map
          (fun pp => pp ++ [u])) [] := rfl

lemma mem_foldl_append {g : Nat → List (List Int)} :
    ∀ (l : List Nat) (acc : List (List Int)) (r : List Int),
      (r ∈ l.foldl (fun a p => a ++ g p) acc ↔ r ∈ acc ∨ ∃ p ∈ l, r ∈ g p) := by
  intro l
  induction l with
  | nil =>
    intro acc r
    simp
  | cons p rest ih =>
    intro acc r
    rw [List.foldl_cons, ih]
    rw [List.mem_append]
    constructor
    · rintro ((h | h) | ⟨p2, hp2, hr⟩)
      · exact Or.inl h
      · exact Or.inr ⟨p, List.mem_cons_self p rest, h⟩
      · exact Or.inr ⟨p2, List.mem_cons_of_mem p hp2, hr⟩
    · rintro (h | ⟨p2, hp2, hr⟩)
      · exact Or.inl (Or.inl h)
      · rcases List.mem_cons.1 hp2 with rfl | hp2
        · exact Or.inl (Or.inr hr)
        · exact Or.inr ⟨p2, hp2, hr⟩

/-- Membership in the cache-free `build`: exactly the optimal paths. -/
lemma build_spec {n : Nat} {matriz : List (List Int)} {ordem : List Nat} {origem : Nat}
    {st : DPState} (hsq : Square n matriz) (hac : Acyclic matriz) (hnd : ordem.Nodup)
    (hresp : ∀ a b, a < n → Edg matriz a b → b ∈ ordem → Before ordem a b)
    (hmemord : ∀ x ∈ ordem, x < n) (hcov : ∀ x, x < n → x ∈ ordem)
    (hdp : DPInv n matriz origem ordem st) :
    ∀ i v, ordem[i]? = some v → ∀ x : Int, st.dist.getD v ⊥ = (x : WithBot Int) →
      ∀ fuel, i < fuel → ∀ r : List Int,
        (r ∈ build st.preds (origem : Int) fuel (v : Int) ↔
          ∃ q, PathTo matriz origem v q ∧ pathWeight matriz q = x ∧ r = liftP q) := by
  intro i
  induction i using Nat.strong_induction_on with
  | _ i ih =>
    intro v hv x hx fuel hfuel r
    obtain ⟨fuel, rfl⟩ : ∃ f, fuel = f + 1 := ⟨fuel - 1, by omega⟩
    rw [build_succ]
    have hvn : v < n := by
      obtain ⟨hb, hval⟩ := List.getElem?_eq_some.1 hv
      exact hmemord v (hval ▸ List.getElem_mem hb)
    by_cases hvo : v = origem
    · subst hvo
      rw [if_pos rfl]
      have hx0 : x = 0 := by
        have h0 := hdp.pinv.odist
        rw [hx] at h0
        exact WithBot.coe_inj.1 h0
      constructor
      · intro hr
        rcases List.mem_singleton.1 hr with rfl
        exact ⟨[v], PathTo.nil, by rw [hx0]; rfl, rfl⟩
      · rintro ⟨q, hq, hqw, rfl⟩
        rw [hq.self_eq hac]
        exact List.mem_singleton.2 rfl
    · rw [if_neg (by exact_mod_cast hvo)]
      have hpreds : pyGetD st.preds [] (v : Int) = st.preds.getD v [] :=
        pyGetD_coe (by rw [hdp.qlen]; exact hvn)
      rw [hpreds, mem_foldl_append]
      constructor
      · rintro (h | ⟨p, hp, hr⟩)
        · exact absurd h (List.not_mem_nil r)
        · obtain ⟨hpdone, hep, hpne, hpeq⟩ := (hdp.preds_iff v hvn hvo p).1 hp
          obtain ⟨y, hy⟩ := exists_coe_of_ne_bot hpne
          have hpn : p < n := (Edg.lt_n hsq hep).1
          obtain ⟨ip, hip, hip_val⟩ := index_of_pred hnd hresp hv hpn hep
          obtain ⟨r', hr', rfl⟩ := List.mem_map.1 hr
          obtain ⟨q, hq, hqw, rfl⟩ :=
            (ih ip hip p hip_val y hy fuel (by omega) r').1 hr'
          refine ⟨q ++ [v], PathTo.snoc hq hep, ?_, ?_⟩
          · rw [pathWeight_snoc v hq.last_eq, hqw]
            rw [hy, hx, ← WithBot.coe_add] at hpeq
            exact WithBot.coe_inj.1 hpeq
          · simp [liftP]
      · rintro ⟨q, hq, hqw, rfl⟩
        obtain ⟨z, q', hq', hez, rfl⟩ := hq.inv_snoc hvo
        have hzn : z < n := (Edg.lt_n hsq hez).1
        have hle1 : ((pathWeight matriz q' : Int) : WithBot Int) ≤ st.dist.getD z ⊥ :=
          weight_le_dist hsq hdp hcov hq'
        have hzb : st.dist.getD z ⊥ ≠ ⊥ := by
          intro hb
          rw [hb] at hle1
          exact absurd (le_bot_iff.1 hle1) WithBot.coe_ne_bot
        obtain ⟨y2, hy2⟩ := exists_coe_of_ne_bot hzb
        have hle2 : st.dist.getD z ⊥ + ((w matriz z v : Int) : WithBot Int) ≤
            ((x : Int) : WithBot Int) := by
          rw [← hx]
          exact hdp.edge_le v z (hcov z hzn) hez
        have hxw : pathWeight matriz q' + w matriz z v = x := by
          rw [← hqw, pathWeight_snoc v hq'.last_eq]
        have hy2w : pathWeight matriz q' = y2 := by
          rw [hy2] at hle1 hle2
          rw [← WithBot.coe_add] at hle2
          have h1 : pathWeight matriz q' ≤ y2 := by exact_mod_cast hle1
          have h2 : y2 + w matriz z v ≤ x := by exact_mod_cast hle2
          omega
        have hzmem : z ∈ st.preds.getD v [] := by
          refine (hdp.preds_iff v hvn hvo z).2 ⟨hcov z hzn, hez, ?_, ?_⟩
          · rw [hy2]; exact WithBot.coe_ne_bot
          · rw [hy2, ← WithBot.coe_add, ← hy2w, hxw, hx]
        obtain ⟨iz, hiz, hiz_val⟩ := index_of_pred hnd hresp hv hzn hez
        right
        refine ⟨z, hzmem, ?_⟩
        rw [List.mem_map]
        refine ⟨liftP q', ?_, by simp [liftP]⟩
        refine (ih iz hiz z hiz_val y2 hy2 fuel (by omega) (liftP q')).2 ?_
        exact ⟨q', hq', hy2w, rfl⟩

/-! ### The memoized `build` computes the same path sets -/

/-- `r` is (the `Int` embedding of) an optimal path from the source to `v`. -/
def OptPath (matriz : List (List Int)) (origem : Nat) (st : DPState) (v : Nat)
    (r : List Int) : Prop :=
  ∃ q, PathTo matriz origem v q ∧
    ((pathWeight matriz q : Int) : WithBot Int) = st.dist.getD v ⊥ ∧ r = liftP q

/-- Every cache entry stores exactly the optimal path set of its key. -/
def SoundMemo (matriz : List (List Int)) (origem : Nat) (st : DPState)
    (memo : Memo) : Prop :=
  ∀ kv ∈ memo, ∃ v : Nat, kv.1 = (v : Int) ∧
    ∀ r, (r ∈ kv.2 ↔ OptPath matriz origem st v r)

lemma optPath_origem_iff {matriz : List (List Int)} (hac : Acyclic matriz)
    {n : Nat} {done : List Nat} {origem : Nat} {st : DPState}
    (hdp : DPInv n matriz origem done st) :
    ∀ r, OptPath matriz origem st origem r ↔ r = [(origem : Int)] := by
  intro r
  constructor
  · rintro ⟨q, hq, _, rfl⟩
    rw [hq.self_eq hac]
    rfl
  · rintro rfl
    refine ⟨[origem], PathTo.nil, ?_, rfl⟩
    rw [hdp.pinv.odist]
    rfl

lemma optPath_step_iff {n : Nat} {matriz : List (List Int)} {ordem : List Nat}
    {origem : Nat} {st : DPState} (hsq : Square n matriz)
    (hcov : ∀ x, x < n → x ∈ ordem) (hdp : DPInv n matriz origem ordem st)
    {v : Nat} (hvn : v < n) (hvo : v ≠ origem) :
    ∀ r : List Int,
      ((∃ p ∈ st.preds.getD v [], ∃ r', OptPath matriz origem st p r' ∧
        r = r' ++ [(v : Int)]) ↔ OptPath matriz origem st v r) := by
  intro r
  constructor
  · rintro ⟨p, hp, r', ⟨q, hq, hqw, rfl⟩, rfl⟩
    obtain ⟨hpdone, hep, hpne, hpeq⟩ := (hdp.preds_iff v hvn hvo p).1 hp
    refine ⟨q ++ [v], PathTo.snoc hq hep, ?_, by simp [liftP]⟩
    rw [pathWeight_snoc v hq.last_eq, WithBot.coe_add, hqw, hpeq]
  · rintro ⟨q, hq, hqw, rfl⟩
    obtain ⟨z, q', hq', hez, rfl⟩ := hq.inv_snoc hvo
    have hzn : z < n := (Edg.lt_n hsq hez).1
    have hle1 : ((pathWeight matriz q' : Int) : WithBot Int) ≤ st.dist.getD z ⊥ :=
      weight_le_dist hsq hdp hcov hq'
    have hzb : st.dist.getD z ⊥ ≠ ⊥ := by
      intro hb
      rw [hb] at hle1
      exact absurd (le_bot_iff.1 hle1) WithBot.coe_ne_bot
    obtain ⟨y2, hy2⟩ := exists_coe_of_ne_bot hzb
    have hle2 : st.dist.getD z ⊥ + ((w matriz z v : Int) : WithBot Int) ≤
        st.dist.getD v ⊥ := hdp.edge_le v z (hcov z hzn) hez
    rw [← hqw, pathWeight_snoc v hq'.last_eq] at hle2
    have hy2w : pathWeight matriz q' = y2 := by
      rw [hy2] at hle1 hle2
      rw [← WithBot.coe_add] at hle2
      have h1 : pathWeight matriz q' ≤ y2 := by exact_mod_cast hle1
      have h2 : y2 + w matriz z v ≤ pathWeight matriz q' + w matriz z v := by
        exact_mod_cast hle2
      omega
    have hzmem : z ∈ st.preds.getD v [] := by
      refine (hdp.preds_iff v hvn hvo z).2 ⟨hcov z hzn, hez, ?_, ?_⟩
      · rw [hy2]; exact WithBot.coe_ne_bot
      · rw [hy2, ← hy2w, ← WithBot.coe_add, ← pathWeight_snoc v hq'.last_eq, hqw]
    refine ⟨z, hzmem, liftP q', ⟨q', hq', ?_, rfl⟩, by simp [liftP]⟩
    rw [hy2, hy2w]

lemma buildMemo_succ {preds : List (List Nat)} {origem : Int} {fuel : Nat} {u : Int}
    {memo : Memo} :
    buildMemo preds origem (fuel + 1) u memo =
      match lookupMemo memo u with
      | some r => (r, memo)
      | none =>
        if u = origem then ([[origem]], (u, [[origem]]) :: memo)
        else
          (((pyGetD preds [] u).foldl
            (fun (a : List (List Int) × Memo) (p : Nat) =>
              (a.1 ++ (buildMemo preds origem fuel (p : Int) a.2).1.map
                (fun pp => pp ++ [u]),
               (buildMemo preds origem fuel (p : Int) a.2).2)) ([], memo)).1,
           (u, ((pyGetD preds [] u).foldl
            (fun (a : List (List Int) × Memo) (p : Nat) =>
              (a.1 ++ (buildMemo preds origem fuel (p : Int) a.2).1.map
                (fun pp => pp ++ [u]),
               (buildMemo preds origem fuel (p : Int) a.2).2)) ([], memo)).1) ::
           ((pyGetD preds [] u).foldl
            (fun (a : List (List Int) × Memo) (p : Nat) =>
              (a.1 ++ (buildMemo preds origem fuel (p : Int) a.2).1.map
                (fun pp => pp ++ [u]),
               (buildMemo preds origem fuel (p : Int) a.2).2)) ([], memo)).2) := by
  rfl

lemma buildMemoFold_spec {matriz : List (List Int)} {origem : Nat} {st : DPState}
    {fuel : Nat} {v : Nat} :
    ∀ L : List Nat,
      (∀ p ∈ L, ∀ memo, SoundMemo matriz origem st memo →
        SoundMemo matriz origem st
          (buildMemo st.preds (origem : Int) fuel (p : Int) memo).2 ∧
        ∀ r, (r ∈ (buildMemo st.preds (origem : Int) fuel (p : Int) memo).1 ↔
          OptPath matriz origem st p r)) →
      ∀ acc memo, SoundMemo matriz origem st memo →
        SoundMemo matriz origem st
          ((L.foldl (fun (a : List (List Int) × Memo) (p : Nat) =>
            (a.1 ++ (buildMemo st.preds (origem : Int) fuel (p : Int) a.2).1.map
              (fun pp => pp ++ [(v : Int)]),
             (buildMemo st.preds (origem : Int) fuel (p : Int) a.2).2))
            (acc, memo)).2) ∧
        ∀ r, (r ∈ (L.foldl (fun (a : List (List Int) × Memo) (p : Nat) =>
            (a.1 ++ (buildMemo st.preds (origem : Int) fuel (p : Int) a.2).1.map
              (fun pp => pp ++ [(v : Int)]),
             (buildMemo st.preds (origem : Int) fuel (p : Int) a.2).2))
            (acc, memo)).1 ↔
          (r ∈ acc ∨ ∃ p ∈ L, ∃ r', OptPath matriz origem st p r' ∧
            r = r' ++ [(v : Int)])) := by
  intro L
  induction L with
  | nil =>
    intro _ acc memo hsm
    rw [List.foldl_nil]
    refine ⟨hsm, fun r => ?_⟩
    simp
  | cons p rest ih =>
    intro hchild acc memo hsm
    rw [List.foldl_cons]
    obtain ⟨hs1, hc1⟩ := hchild p (List.mem_cons_self p rest) memo hsm
    obtain ⟨hs2, hc2⟩ := ih
      (fun p2 hp2 memo2 hsm2 => hchild p2 (List.mem_cons_of_mem p hp2) memo2 hsm2)
      (acc ++ (buildMemo st.preds (origem : Int) fuel (p : Int) memo).1.map
        (fun pp => pp ++ [(v : Int)]))
      (buildMemo st.preds (origem : Int) fuel (p : Int) memo).2 hs1
    refine ⟨hs2, fun r => ?_⟩
    rw [hc2 r]
    constructor
    · rintro (h | ⟨p2, hp2, r', hr', rfl⟩)
      · rcases List.mem_append.1 h with h | h
        · exact Or.inl h
        · obtain ⟨r', hr', rfl⟩ := List.mem_map.1 h
          exact Or.inr ⟨p, List.mem_cons_self p rest, r', (hc1 r').1 hr', rfl⟩
      · exact Or.inr ⟨p2, List.mem_cons_of_mem p hp2, r', hr', rfl⟩
    · rintro (h | ⟨p2, hp2, r', hr', rfl⟩)
      · exact Or.inl (List.mem_append.2 (Or.inl h))
      · rcases List.mem_cons.1 hp2 with rfl | hp2
        · refine Or.inl (List.mem_append.2 (Or.inr ?_))
          exact List.mem_map.2 ⟨r', (hc1 r').2 hr', rfl⟩
        · exact Or.inr ⟨p2, hp2, r', hr', rfl⟩

/-- Membership in the memoized `build` run from any sound cache: exactly the
optimal paths, and the cache stays sound. -/
lemma buildMemo_spec {n : Nat} {matriz : List (List Int)} {ordem : List Nat}
    {origem : Nat} {st : DPState} (hsq : Square n matriz) (hac : Acyclic matriz)
    (hnd : ordem.Nodup)
    (hresp : ∀ a b, a < n → Edg matriz a b → b ∈ ordem → Before ordem a b)
    (hmemord : ∀ x ∈ ordem, x < n) (hcov : ∀ x, x < n → x ∈ ordem)
    (hdp : DPInv n matriz origem ordem st) :
    ∀ i v, ordem[i]? = some v → st.dist.getD v ⊥ ≠ ⊥ → ∀ fuel, i < fuel →
      ∀ memo, SoundMemo matriz origem st memo →
        SoundMemo matriz origem st
          (buildMemo st.preds (origem : Int) fuel (v : Int) memo).2 ∧
        ∀ r, (r ∈ (buildMemo st.preds (origem : Int) fuel (v : Int) memo).1 ↔
          OptPath matriz origem st v r) := by
  intro i
  induction i using Nat.strong_induction_on with
  | _ i ih =>
    intro v hv hvb fuel hfuel memo hsm
    obtain ⟨fuel, rfl⟩ : ∃ f, fuel = f + 1 := ⟨fuel - 1, by omega⟩
    have hvn : v < n := by
      obtain ⟨hb, hval⟩ := List.getElem?_eq_some.1 hv
      exact hmemord v (hval ▸ List.getElem_mem hb)
    rw [buildMemo_succ]
    cases hlk : lookupMemo memo (v : Int) with
    | some rl =>
      obtain ⟨kv, hfind, hkv2⟩ := Option.map_eq_some'.1 hlk
      have hkvmem : kv ∈ memo := List.mem_of_find?_eq_some hfind
      have hkey : kv.1 = (v : Int) := by
        have hpred := List.find?_some hfind
        exact beq_iff_eq.1 hpred
      obtain ⟨v', hkey', hchar⟩ := hsm kv hkvmem
      have hvv : v' = v := by
        rw [hkey] at hkey'
        exact_mod_cast hkey'.symm
      subst hvv
      exact ⟨hsm, fun r => hkv2 ▸ hchar r⟩
    | none =>
      by_cases hvo : v = origem
      · rw [if_pos (by exact_mod_cast hvo)]
        have hiff := optPath_origem_iff hac hdp
        constructor
        · intro kv hkv
          rcases List.mem_cons.1 hkv with rfl | hkv
          · refine ⟨v, rfl, fun r => ?_⟩
            rw [hvo, hiff r]
            constructor
            · intro hr
              rcases List.mem_singleton.1 hr with rfl
              rfl
            · rintro rfl
              exact List.mem_singleton.2 rfl
          · exact hsm kv hkv
        · intro r
          rw [hvo, hiff r]
          constructor
          · intro hr
            rcases List.mem_singleton.1 hr with rfl
            rfl
          · rintro rfl
            exact List.mem_singleton.2 rfl
      · rw [if_neg (by exact_mod_cast hvo)]
        have hpreds : pyGetD st.preds [] (v : Int) = st.preds.getD v [] :=
          pyGetD_coe (by rw [hdp.qlen]; exact hvn)
        rw [hpreds]
        have hchild : ∀ p ∈ st.preds.getD v [], ∀ memo2,
            SoundMemo matriz origem st memo2 →
            SoundMemo matriz origem st
              (buildMemo st.preds (origem : Int) fuel (p : Int) memo2).2 ∧
            ∀ r, (r ∈ (buildMemo st.preds (origem : Int) fuel (p : Int) memo2).1 ↔
              OptPath matriz origem st p r) := by
          intro p hp memo2 hsm2
          obtain ⟨hpdone, hep, hpne, hpeq⟩ := (hdp.preds_iff v hvn hvo p).1 hp
          have hpn : p < n := (Edg.lt_n hsq hep).1
          obtain ⟨ip, hip, hip_val⟩ := index_of_pred hnd hresp hv hpn hep
          exact ih ip hip p hip_val hpne fuel (by omega) memo2 hsm2
        obtain ⟨hsf, hcf⟩ := buildMemoFold_spec (st.preds.getD v []) hchild [] memo hsm
        constructor
        · intro kv hkv
          rcases List.mem_cons.1 hkv with rfl | hkv
          · refine ⟨v, rfl, fun r => ?_⟩
            rw [hcf r]
            constructor
            · rintro (h | h)
              · exact absurd h (List.not_mem_nil r)
              · exact (optPath_step_iff hsq hcov hdp hvn hvo r).1 h
            · intro h
              exact Or.inr ((optPath_step_iff hsq hcov hdp hvn hvo r).2 h)
          · exact hsf kv hkv
        · intro r
          rw [hcf r]
          constructor
          · rintro (h | h)
            · exact absurd h (List.not_mem_nil r)
            · exact (optPath_step_iff hsq hcov hdp hvn hvo r).1 h
          · intro h
            exact Or.inr ((optPath_step_iff hsq hcov hdp hvn hvo r).2 h)

/-! ### The tie branch's re-seating of the single witness is dead code -/

/-- `relaxEdge` with the `if predecessor[dest] == -1` re-assignment of the tie
branch (`src/main.py` lines 114–115) deleted. -/
def relaxEdgeNR (orig dest : Nat) (peso : Int) (st : DPState) : DPState :=
  let cand : WithBot Int := st.dist.getD orig ⊥ + (peso : Int)
  if st.dist.getD dest ⊥ < cand then
    DPState.mk (st.dist.set dest cand) (st.pred.set dest (orig : Int))
      (st.preds.set dest [orig])
  else if cand = st.dist.getD dest ⊥ then
    DPState.mk st.dist st.pred (st.preds.set dest (st.preds.getD dest [] ++ [orig]))
  else st

/-- The relaxation pass rebuilt on top of `relaxEdgeNR`. -/
def relaxRowNR (orig j : Nat) (row : List Int) (st : DPState) : DPState :=
  match row with
  | [] => st
  | peso :: rest =>
    relaxRowNR orig (j + 1) rest (if peso ≠ 0 then relaxEdgeNR orig j peso st else st)

def processVertexNR (matriz : List (List Int)) (st : DPState) (orig : Nat) : DPState :=
  if st.dist.getD orig ⊥ = ⊥ then st else relaxRowNR orig 0 (matriz.getD orig []) st

def runPassNR (matriz : List (List Int)) (ordem : List Nat) (st : DPState) : DPState :=
  ordem.foldl (processVertexNR matriz) st

lemma relaxEdgeNR_def (orig dest : Nat) (peso : Int) (st : DPState) :
    relaxEdgeNR orig dest peso st =
      if st.dist.getD dest ⊥ < st.dist.getD orig ⊥ + (peso : Int) then
        DPState.mk (st.dist.set dest (st.dist.getD orig ⊥ + (peso : Int)))
          (st.pred.set dest (orig : Int)) (st.preds.set dest [orig])
      else if st.dist.getD orig ⊥ + (peso : Int) = st.dist.getD dest ⊥ then
        DPState.mk st.dist st.pred
          (st.preds.set dest (st.preds.getD dest [] ++ [orig]))
      else st := rfl

lemma relaxRowNR_cons {orig j : Nat} {peso : Int} {rest : List Int} {st : DPState} :
    relaxRowNR orig j (peso :: rest) st =
      relaxRowNR orig (j + 1) rest (if peso ≠ 0 then relaxEdgeNR orig j peso st else st) :=
  rfl

lemma relaxEdgeNR_eq {n : Nat} {matriz : List (List Int)} (hsq : Square n matriz)
    (hac : Acyclic matriz) {origem : Nat} {done : List Nat} {u : Nat}
    {j : Nat} {peso : Int} {st : DPState}
    (hw : w matriz u j = peso) (hpeso : peso ≠ 0)
    (hu : st.dist.getD u ⊥ ≠ ⊥) (hri : RowInv n matriz origem done u j st) :
    relaxEdgeNR u j peso st = relaxEdge u j peso st := by
  have he : Edg matriz u j := by rw [Edg, hw]; exact hpeso
  have hjn : j < n := (Edg.lt_n hsq he).2
  obtain ⟨y, hy⟩ := exists_coe_of_ne_bot hu
  have hjo : j ≠ origem := by
    rintro rfl
    obtain ⟨p, hp, hwt⟩ := hri.pinv.sound u y hy
    exact hac (hasCycle_of_path_edge hp he)
  rw [relaxEdgeNR_def, relaxEdge_def]
  rcases lt_trichotomy (st.dist.getD j ⊥) (st.dist.getD u ⊥ + (peso : Int))
    with hlt | heq | hgt
  · rw [if_pos hlt, if_pos hlt]
  · have hnlt : ¬ st.dist.getD j ⊥ < st.dist.getD u ⊥ + (peso : Int) := by
      rw [heq]
      exact lt_irrefl _
    rw [if_neg hnlt, if_neg hnlt, if_pos heq.symm, if_pos heq.symm]
    have hdvne : st.dist.getD j ⊥ ≠ ⊥ := by
      rw [heq, hy, ← WithBot.coe_add]
      exact WithBot.coe_ne_bot
    obtain ⟨q, hq, _⟩ := hri.pred_mem j hjn hjo hdvne
    have hpredne : st.pred.getD j (-1) ≠ -1 := by
      rw [hq]
      intro hcon
      omega
    rw [if_neg hpredne]
  · have hnlt : ¬ st.dist.getD j ⊥ < st.dist.getD u ⊥ + (peso : Int) :=
      not_lt.2 (le_of_lt hgt)
    have hne : ¬ st.dist.getD u ⊥ + (peso : Int) = st.dist.getD j ⊥ :=
      ne_of_lt hgt
    rw [if_neg hnlt, if_neg hnlt, if_neg hne, if_neg hne]

lemma relaxRowNR_eq {n : Nat} {matriz : List (List Int)} (hsq : Square n matriz)
    (hac : Acyclic matriz) {origem : Nat} {done : List Nat} {u : Nat}
    (hdone_nedge : ∀ k, Edg matriz u k → k ∉ done) :
    ∀ row j st, (matriz.getD u []).drop j = row →
      st.dist.getD u ⊥ ≠ ⊥ →
      RowInv n matriz origem done u j st →
      relaxRowNR u j row st = relaxRow u j row st := by
  intro row
  induction row with
  | nil => intro j st _ _ _; rfl
  | cons peso rest ih =>
    intro j st hdrop hu hri
    obtain ⟨hw, hdrop', hjlen⟩ := drop_head_w hdrop
    rw [relaxRowNR_cons, relaxRow_cons]
    by_cases hpeso : peso ≠ 0
    · rw [if_pos hpeso, if_pos hpeso]
      rw [relaxEdgeNR_eq hsq hac hw hpeso hu hri]
      obtain ⟨hri2, hu2⟩ := relaxEdge_inv hsq hac hdone_nedge hw hpeso hu hri
      exact ih (j + 1) _ hdrop' hu2 hri2
    · rw [if_neg hpeso, if_neg hpeso]
      push_neg at hpeso
      refine ih (j + 1) _ hdrop' hu ?_
      refine hri.mono_j (by omega) ?_
      intro x hx hxlt hex
      have hxj : x = j := by omega
      subst hxj
      rw [Edg, hw] at hex
      exact hex hpeso

lemma processVertexNR_eq {n : Nat} {matriz : List (List Int)} (hsq : Square n matriz)
    (hac : Acyclic matriz) {origem : Nat} {ordem done rest : List Nat} {u : Nat}
    (hord : ordem = done ++ u :: rest) (hnd : ordem.Nodup)
    (hresp : ∀ a b, a < n → Edg matriz a b → b ∈ ordem → Before ordem a b)
    {st : DPState} (hdp : DPInv n matriz origem done st) :
    processVertexNR matriz st u = processVertex matriz st u := by
  have hdone_nedge : ∀ k, Edg matriz u k → k ∉ done := by
    intro k he hk
    have hun : u < n := (Edg.lt_n hsq he).1
    have hkord : k ∈ ordem := by
      rw [hord]
      exact List.mem_append.2 (Or.inl hk)
    have hb := hresp u k hun he hkord
    obtain ⟨i, j, hij, hi, hj⟩ := hb
    rw [hord] at hi hj
    have hndA : (done ++ u :: rest).Nodup := hord ▸ hnd
    have hilen : i < (done ++ u :: rest).length := (List.getElem?_eq_some.1 hi).1
    have hie : i = done.length :=
      List.getElem?_inj hilen hndA (hi.trans split_getElem.symm)
    obtain ⟨j0, hj0lt, hj0val⟩ := List.getElem_of_mem hk
    have hj0 : (done ++ u :: rest)[j0]? = some k := by
      rw [List.getElem?_append_left hj0lt, List.getElem?_eq_getElem hj0lt, hj0val]
    have hjlen : j < (done ++ u :: rest).length := (List.getElem?_eq_some.1 hj).1
    have hje : j = j0 := List.getElem?_inj hjlen hndA (hj.trans hj0.symm)
    omega
  unfold processVertexNR
  rw [processVertex_def]
  by_cases hskip : st.dist.getD u ⊥ = ⊥
  · rw [if_pos hskip, if_pos hskip]
  · rw [if_neg hskip, if_neg hskip]
    have hri0 : RowInv n matriz origem done u 0 st := by
      refine ⟨hdp.dlen, hdp.plen, hdp.qlen, hdp.pinv, ?_, hdp.pred_bot, hdp.pred_mem, ?_⟩
      · intro v hv hvo p
        rw [hdp.preds_iff v hv hvo p]
        constructor
        · rintro ⟨hd, hep, h1, h2⟩
          exact ⟨Or.inl hd, hep, h1, h2⟩
        · rintro ⟨hc, hep, h1, h2⟩
          rcases hc with hd | ⟨_, hlt⟩
          · exact ⟨hd, hep, h1, h2⟩
          · omega
      · intro v p hc hep
        rcases hc with hd | ⟨_, hlt⟩
        · exact hdp.edge_le v p hd hep
        · omega
    exact relaxRowNR_eq hsq hac hdone_nedge (matriz.getD u []) 0 st
      (List.drop_zero _) hskip hri0

lemma runPassNR_eq {n : Nat} {matriz : List (List Int)} (hsq : Square n matriz)
    (hac : Acyclic matriz) {origem : Nat} {ordem : List Nat}
    (hnd : ordem.Nodup)
    (hresp : ∀ a b, a < n → Edg matriz a b → b ∈ ordem → Before ordem a b)
    (hmemord : ∀ x ∈ ordem, x < n) :
    ∀ todo done st, ordem = done ++ todo → DPInv n matriz origem done st →
      todo.foldl (processVertexNR matriz) st = todo.foldl (processVertex matriz) st := by
  intro todo
  induction todo with
  | nil => intro done st _ _; rfl
  | cons u rest ih =>
    intro done st hord hdp
    rw [List.foldl_cons, List.foldl_cons]
    rw [processVertexNR_eq hsq hac hord hnd hresp hdp]
    refine ih (done ++ [u]) _ (by rw [hord]; simp) ?_
    exact processVertex_inv hsq hac hord hnd hresp hmemord hdp

/-! ### Evaluating `longest_path_dag` -/

lemma relaxEdge_dlen {orig dest : Nat} {peso : Int} {st : DPState} :
    (relaxEdge orig dest peso st).dist.length = st.dist.length := by
  rw [relaxEdge_def]
  by_cases h1 : st.dist.getD dest ⊥ < st.dist.getD orig ⊥ + (peso : Int)
  · rw [if_pos h1]
    exact List.length_set _ _ _
  · rw [if_neg h1]
    by_cases h2 : st.dist.getD orig ⊥ + (peso : Int) = st.dist.getD dest ⊥
    · rw [if_pos h2]
    · rw [if_neg h2]

lemma relaxRow_dlen {orig : Nat} :
    ∀ row j (st : DPState), (relaxRow orig j row st).dist.length = st.dist.length := by
  intro row
  induction row with
  | nil => intro j st; rfl
  | cons peso rest ih =>
    intro j st
    rw [relaxRow_cons, ih]
    by_cases h : peso ≠ 0
    · rw [if_pos h]
      exact relaxEdge_dlen
    · rw [if_neg h]

lemma processVertex_dlen {matriz : List (List Int)} {st : DPState} {orig : Nat} :
    (processVertex matriz st orig).dist.length = st.dist.length := by
  rw [processVertex_def]
  by_cases h : st.dist.getD orig ⊥ = ⊥
  · rw [if_pos h]
  · rw [if_neg h]
    exact relaxRow_dlen _ _ _

lemma runPass_dlen {matriz : List (List Int)} :
    ∀ (ordem : List Nat) (st : DPState),
      (runPass matriz ordem st).dist.length = st.dist.length := by
  intro ordem
  induction ordem with
  | nil => intro st; rfl
  | cons u rest ih =>
    intro st
    show (runPass matriz rest (processVertex matriz st u)).dist.length = _
    rw [ih, processVertex_dlen]

lemma pyIdx_valid {len : Nat} {i : Int} (h1 : -(len : Int) ≤ i) (h2 : i < (len : Int)) :
    ∃ j : Nat, pyIdx len i = some j ∧ j < len := by
  unfold pyIdx
  by_cases h0 : 0 ≤ i ∧ i < (len : Int)
  · rw [if_pos h0]
    exact ⟨i.toNat, rfl, by omega⟩
  · rw [if_neg h0, if_pos ⟨h1, by omega⟩]
    exact ⟨(i + len).toNat, rfl, by omega⟩

lemma pyIdx_invalid {len : Nat} {i : Int} (h : i < -(len : Int) ∨ (len : Int) ≤ i) :
    pyIdx len i = none := by
  unfold pyIdx
  rw [if_neg (by omega), if_neg (by omega)]

lemma pySet_invalid {α : Type} {xs : List α} {i : Int} {v : α}
    (h : i < -(xs.length : Int) ∨ (xs.length : Int) ≤ i) : pySet xs i v = none := by
  unfold pySet
  rw [pyIdx_invalid h]
  rfl

lemma pyGet_invalid {α : Type} {xs : List α} {i : Int}
    (h : i < -(xs.length : Int) ∨ (xs.length : Int) ≤ i) : pyGet xs i = none := by
  unfold pyGet
  rw [pyIdx_invalid h]
  rfl

lemma pySet_valid {α : Type} {xs : List α} {i : Int} {v : α} {j : Nat}
    (h : pyIdx xs.length i = some j) : pySet xs i v = some (xs.set j v) := by
  unfold pySet
  rw [h]
  rfl

lemma pyGet_valid {α : Type} [Inhabited α] {xs : List α} {i : Int} {j : Nat}
    (h : pyIdx xs.length i = some j) (hj : j < xs.length) {d : α} :
    pyGet xs i = some (xs.getD j d) := by
  unfold pyGet
  rw [h, List.getD_eq_getElem?_getD, List.getElem?_eq_getElem hj]
  simp [List.get?_eq_getElem?, List.getElem?_eq_getElem hj]

/-- The tail of `longest_path_dag` after the topological sort succeeded. -/
def ldagAfterTopo (n : Nat) (matriz : List (List Int)) (origem destino : Int)
    (ordem : List Nat) : Except Err LongestPathResult :=
  match pySet (List.replicate n (⊥ : WithBot Int)) origem (0 : WithBot Int) with
  | none => .error .index
  | some dist0 =>
    let st := runPass matriz ordem
      (DPState.mk dist0 (List.replicate n (-1 : Int)) (List.replicate n []))
    match pyGet st.dist destino with
    | none => .error .index
    | some dt =>
      if dt = ⊥ then
        .ok (LongestPathResult.mk n matriz origem destino ordem st.dist st.pred
          st.preds [] [] none)
      else
        .ok (LongestPathResult.mk n matriz origem destino ordem st.dist st.pred
          st.preds ((chain st.pred (n + 1) destino).reverse)
          ((buildMemo st.preds origem (n + 1) destino ([] : List _)).1)
          (some (WithBot.unbot' 0 dt)))

lemma longest_path_dag_after {n : Nat} {matriz : List (List Int)} {ordem : List Nat}
    (htopo : topological_order n matriz = .ok ordem) (origem destino : Int) :
    longest_path_dag n matriz origem destino =
      ldagAfterTopo n matriz origem destino ordem := by
  unfold longest_path_dag ldagAfterTopo
  rw [htopo]

/-- The tail of `longest_path_dag` after the distance array was initialised. -/
def ldagAfterInit (n : Nat) (matriz : List (List Int)) (origem destino : Int)
    (ordem : List Nat) (st : DPState) : Except Err LongestPathResult :=
  match pyGet st.dist destino with
  | none => .error .index
  | some dt =>
    if dt = ⊥ then
      .ok (LongestPathResult.mk n matriz origem destino ordem st.dist st.pred
        st.preds [] [] none)
    else
      .ok (LongestPathResult.mk n matriz origem destino ordem st.dist st.pred
        st.preds ((chain st.pred (n + 1) destino).reverse)
        ((buildMemo st.preds origem (n + 1) destino ([] : List _)).1)
        (some (WithBot.unbot' 0 dt)))

lemma ldagAfterTopo_init {n : Nat} {matriz : List (List Int)} {ordem : List Nat}
    {origem : Int} {s : Nat} (hidx : pyIdx n origem = some s) (destino : Int) :
    ldagAfterTopo n matriz origem destino ordem =
      ldagAfterInit n matriz origem destino ordem
        (runPass matriz ordem (initState n s)) := by
  unfold ldagAfterTopo ldagAfterInit initState
  rw [pySet_valid (by rw [List.length_replicate]; exact hidx)]
  rfl

lemma ldagAfterInit_eval {n : Nat} {matriz : List (List Int)} {ordem : List Nat}
    {origem destino : Int} {t : Nat} {st : DPState}
    (hlen : st.dist.length = n) (hidx : pyIdx n destino = some t) (htn : t < n) :
    ldagAfterInit n matriz origem destino ordem st =
      (if st.dist.getD t ⊥ = ⊥ then
        Except.ok (LongestPathResult.mk n matriz origem destino ordem st.dist st.pred
          st.preds [] [] none)
      else
        Except.ok (LongestPathResult.mk n matriz origem destino ordem st.dist st.pred
          st.preds ((chain st.pred (n + 1) destino).reverse)
          ((buildMemo st.preds origem (n + 1) destino ([] : List _)).1)
          (some (WithBot.unbot' 0 (st.dist.getD t ⊥))))) := by
  unfold ldagAfterInit
  rw [pyGet_valid (by rw [hlen]; exact hidx) (by rw [hlen]; exact htn)]

lemma mem_index {ordem : List Nat} {t : Nat} (h : t ∈ ordem) :
    ∃ i, i < ordem.length ∧ ordem[i]? = some t := by
  obtain ⟨i, hi, hval⟩ := List.getElem_of_mem h
  exact ⟨i, hi, by rw [List.getElem?_eq_getElem hi, hval]⟩

/-- Full characterisation of the record returned by `longest_path_dag` for an
in-range source and target on a graph whose topological sort succeeds. -/
lemma result_spec {n : Nat} {matriz : List (List Int)} {s t : Nat} {ordem : List Nat}
    (hsq : Square n matriz) (hs : s < n) (ht : t < n)
    (htopo : topological_order n matriz = .ok ordem) :
    ∃ res, longest_path_dag n matriz (s : Int) (t : Int) = .ok res ∧
      res.ordem_topologica = ordem ∧
      res.distancias = (runPass matriz ordem (initState n s)).dist ∧
      res.predecessor = (runPass matriz ordem (initState n s)).pred ∧
      res.predecessores = (runPass matriz ordem (initState n s)).preds ∧
      ((runPass matriz ordem (initState n s)).dist.getD t ⊥ = ⊥ →
        res.peso_total = none ∧ res.caminho_otimo = [] ∧ res.caminhos_otimos = []) ∧
      (∀ x : Int,
        (runPass matriz ordem (initState n s)).dist.getD t ⊥ = (x : WithBot Int) →
        res.peso_total = some x ∧
        (∃ q, PathTo matriz s t q ∧ pathWeight matriz q = x ∧
          res.caminho_otimo = liftP q) ∧
        (∀ r, r ∈ res.caminhos_otimos ↔
          ∃ q, PathTo matriz s t q ∧ pathWeight matriz q = x ∧ r = liftP q)) := by
  have hdp := final_DPInv hsq hs htopo
  obtain ⟨hlen, hnd, hmemlt, hresp, hperm⟩ := topo_ok_spec hsq htopo
  have hac := acyclic_of_topo_ok hsq htopo
  have hcov := topo_cov hsq htopo
  have hmain : longest_path_dag n matriz (s : Int) (t : Int) =
      ldagAfterInit n matriz (s : Int) (t : Int) ordem
        (runPass matriz ordem (initState n s)) := by
    rw [longest_path_dag_after htopo, ldagAfterTopo_init (pyIdx_coe hs)]
  have heval := @ldagAfterInit_eval n matriz ordem (s : Int) (t : Int) t
    (runPass matriz ordem (initState n s)) hdp.dlen (pyIdx_coe ht) ht
  rw [heval] at hmain
  by_cases hbot : (runPass matriz ordem (initState n s)).dist.getD t ⊥ = ⊥
  · rw [if_pos hbot] at hmain
    refine ⟨_, hmain, rfl, rfl, rfl, rfl, fun _ => ⟨rfl, rfl, rfl⟩, ?_⟩
    intro x hx
    rw [hbot] at hx
    exact absurd hx.symm WithBot.coe_ne_bot
  · rw [if_neg hbot] at hmain
    refine ⟨_, hmain, rfl, rfl, rfl, rfl, fun hb => absurd hb hbot, ?_⟩
    intro x hx
    obtain ⟨i, hilen, hival⟩ := mem_index (hcov t ht)
    refine ⟨?_, ?_, ?_⟩
    · show some (WithBot.unbot' 0
        ((runPass matriz ordem (initState n s)).dist.getD t ⊥)) = some x
      rw [hx]
      rfl
    · obtain ⟨q, hq, hqw, hqc⟩ :=
        chain_spec hsq hnd hresp hmemlt hdp i t hival x hx (n + 1) (by omega)
      refine ⟨q, hq, hqw, ?_⟩
      show (chain (runPass matriz ordem (initState n s)).pred (n + 1)
        (t : Int)).reverse = liftP q
      rw [hqc]
      show (liftP q.reverse).reverse = liftP q
      unfold liftP
      rw [List.map_reverse, List.reverse_reverse]
    · intro r
      have hsm0 : SoundMemo matriz s (runPass matriz ordem (initState n s)) [] := by
        intro kv hkv
        exact absurd hkv (List.not_mem_nil kv)
      obtain ⟨_, hchar⟩ := buildMemo_spec hsq hac hnd hresp hmemlt hcov hdp i t hival
        (by rw [hx]; exact WithBot.coe_ne_bot) (n + 1) (by omega) [] hsm0
      refine (hchar r).trans ?_
      constructor
      · rintro ⟨q, hq, hqd, rfl⟩
        refine ⟨q, hq, ?_, rfl⟩
        rw [hx] at hqd
        exact_mod_cast hqd
      · rintro ⟨q, hq, hqw, rfl⟩
        exact ⟨q, hq, by rw [hx, hqw], rfl⟩

/-! ### The pass invariant alone survives relaxing arbitrary vertex lists -/

lemma relaxEdge_passInv {n : Nat} {matriz : List (List Int)} (hsq : Square n matriz)
    (hac : Acyclic matriz) {origem u j : Nat} {peso : Int} {st : DPState}
    (hw : w matriz u j = peso) (hpeso : peso ≠ 0)
    (hdl : st.dist.length = n) (hpl : st.pred.length = n) (hql : st.preds.length = n)
    (hpi : PassInv matriz origem st) :
    (relaxEdge u j peso st).dist.length = n ∧
      (relaxEdge u j peso st).pred.length = n ∧
      (relaxEdge u j peso st).preds.length = n ∧
      PassInv matriz origem (relaxEdge u j peso st) := by
  have he : Edg matriz u j := by rw [Edg, hw]; exact hpeso
  have hjn : j < n := (Edg.lt_n hsq he).2
  have hju : j ≠ u := by
    rintro rfl
    exact hac (hasCycle_self he)
  rw [relaxEdge_def]
  rcases lt_trichotomy (st.dist.getD j ⊥) (st.dist.getD u ⊥ + (peso : Int))
    with hlt | heq | hgt
  · rw [if_pos hlt]
    obtain ⟨y, hy⟩ : ∃ y : Int, st.dist.getD u ⊥ = (y : WithBot Int) := by
      cases hb : st.dist.getD u ⊥ with
      | bot =>
        rw [hb, WithBot.bot_add] at hlt
        exact absurd hlt (not_lt_bot)
      | coe y => exact ⟨y, rfl⟩
    have hjo : j ≠ origem := by
      rintro rfl
      obtain ⟨p, hp, hwt⟩ := hpi.sound u y hy
      exact hac (hasCycle_of_path_edge hp he)
    have hdlj : j < st.dist.length := by rw [hdl]; exact hjn
    have hcand : st.dist.getD u ⊥ + (peso : Int) = ((y + peso : Int) : WithBot Int) := by
      rw [hy, ← WithBot.coe_add]
    refine ⟨by rw [List.length_set]; exact hdl, by rw [List.length_set]; exact hpl,
      by rw [List.length_set]; exact hql, ⟨?_, ?_, ?_, ?_⟩⟩
    · intro v x hx
      by_cases hvj : v = j
      · subst hvj
        rw [getD_set_self hdlj, hcand] at hx
        have hxeq : y + peso = x := WithBot.coe_inj.1 hx
        obtain ⟨p, hp, hwt⟩ := hpi.sound u y hy
        refine ⟨p ++ [v], PathTo.snoc hp he, ?_⟩
        rw [pathWeight_snoc v hp.last_eq, hwt, hw]
        omega
      · rw [getD_set_ne hvj] at hx
        exact hpi.sound v x hx
    · rw [getD_set_ne (by omega : origem ≠ j)]
      exact hpi.odist
    · rw [getD_set_ne (by omega : origem ≠ j)]
      exact hpi.opred
    · rw [getD_set_ne (by omega : origem ≠ j)]
      exact hpi.opreds
  · rw [if_neg (by rw [heq]; exact lt_irrefl _), if_pos heq.symm]
    have hjo : j ≠ origem := by
      rintro rfl
      rw [hpi.odist] at heq
      cases hb : st.dist.getD u ⊥ with
      | bot =>
        rw [hb, WithBot.bot_add] at heq
        exact absurd heq (WithBot.coe_ne_bot)
      | coe y =>
        obtain ⟨p, hp, hwt⟩ := hpi.sound u y hb
        exact hac (hasCycle_of_path_edge hp he)
    refine ⟨hdl, ?_, by rw [List.length_set]; exact hql, ⟨?_, ?_, ?_, ?_⟩⟩
    · by_cases hpm : st.pred.getD j (-1) = -1
      · rw [if_pos hpm, List.length_set]
        exact hpl
      · rw [if_neg hpm]
        exact hpl
    · exact hpi.sound
    · exact hpi.odist
    · by_cases hpm : st.pred.getD j (-1) = -1
      · rw [if_pos hpm, getD_set_ne (by omega : origem ≠ j)]
        exact hpi.opred
      · rw [if_neg hpm]
        exact hpi.opred
    · rw [getD_set_ne (by omega : origem ≠ j)]
      exact hpi.opreds
  · rw [if_neg (not_lt.2 (le_of_lt hgt)), if_neg (ne_of_lt hgt)]
    exact ⟨hdl, hpl, hql, hpi⟩

lemma relaxRow_passInv {n : Nat} {matriz : List (List Int)} (hsq : Square n matriz)
    (hac : Acyclic matriz) {origem u : Nat} :
    ∀ row j (st : DPState), (matriz.getD u []).drop j = row →
      st.dist.length = n → st.pred.length = n → st.preds.length = n →
      PassInv matriz origem st →
      (relaxRow u j row st).dist.length = n ∧
        (relaxRow u j row st).pred.length = n ∧
        (relaxRow u j row st).preds.length = n ∧
        PassInv matriz origem (relaxRow u j row st) := by
  intro row
  induction row with
  | nil =>
    intro j st _ h1 h2 h3 h4
    exact ⟨h1, h2, h3, h4⟩
  | cons peso rest ih =>
    intro j st hdrop h1 h2 h3 h4
    obtain ⟨hw, hdrop2, hjlen⟩ := drop_head_w hdrop
    rw [relaxRow_cons]
    by_cases hpeso : peso ≠ 0
    · rw [if_pos hpeso]
      obtain ⟨g1, g2, g3, g4⟩ := relaxEdge_passInv hsq hac hw hpeso h1 h2 h3 h4
      exact ih (j + 1) _ hdrop2 g1 g2 g3 g4
    · rw [if_neg hpeso]
      exact ih (j + 1) _ hdrop2 h1 h2 h3 h4

lemma processVertex_passInv {n : Nat} {matriz : List (List Int)} (hsq : Square n matriz)
    (hac : Acyclic matriz) {origem : Nat} {st : DPState} {u : Nat}
    (h1 : st.dist.length = n) (h2 : st.pred.length = n) (h3 : st.preds.length = n)
    (h4 : PassInv matriz origem st) :
    (processVertex matriz st u).dist.length = n ∧
      (processVertex matriz st u).pred.length = n ∧
      (processVertex matriz st u).preds.length = n ∧
      PassInv matriz origem (processVertex matriz st u) := by
  rw [processVertex_def]
  by_cases hb : st.dist.getD u ⊥ = ⊥
  · rw [if_pos hb]
    exact ⟨h1, h2, h3, h4⟩
  · rw [if_neg hb]
    exact relaxRow_passInv hsq hac _ 0 st rfl h1 h2 h3 h4

/-- Relaxing any vertex list whatsoever (not just the topological order)
keeps the pass invariant, in particular the source's entries. -/
lemma runPass_passInv {n : Nat} {matriz : List (List Int)} (hsq : Square n matriz)
    (hac : Acyclic matriz) {origem : Nat} :
    ∀ (l : List Nat) (st : DPState),
      st.dist.length = n → st.pred.length = n → st.preds.length = n →
      PassInv matriz origem st →
      PassInv matriz origem (runPass matriz l st) := by
  intro l
  induction l with
  | nil =>
    intro st _ _ _ h4
    exact h4
  | cons v rest ih =>
    intro st h1 h2 h3 h4
    show PassInv matriz origem (runPass matriz rest (processVertex matriz st v))
    obtain ⟨g1, g2, g3, g4⟩ := processVertex_passInv hsq hac h1 h2 h3 h4
    exact ih _ g1 g2 g3 g4

/-! ## Concrete graphs used to instantiate the claims -/

/-- Scenario B of the spec: edges `0→1` (2), `1→2` (3), `0→2` (4). -/
def mB : List (List Int) := [[0, 2, 4], [0, 0, 3], [0, 0, 0]]

/-- The record `longest_path_dag 3 mB 0 2` returns. -/
def resB : LongestPathResult :=
  LongestPathResult.mk 3 mB 0 2 [0, 1, 2]
    [((0 : Int) : WithBot Int), ((2 : Int) : WithBot Int), ((5 : Int) : WithBot Int)]
    [-1, 0, 1] [[], [0], [1]] [0, 1, 2] [[0, 1, 2]] (some 5)

/-- Scenario D of the spec: two vertices, no edges. -/
def mD : List (List Int) := [[0, 0], [0, 0]]

/-- The record `longest_path_dag 2 mD 0 1` returns: target unreachable. -/
def resD : LongestPathResult :=
  LongestPathResult.mk 2 mD 0 1 [0, 1]
    [((0 : Int) : WithBot Int), (⊥ : WithBot Int)] [-1, -1] [[], []] [] [] none

/-! ## The claims -/

/-- C2: on every square matrix, if the graph is acyclic then
`topological_order` returns a permutation of all vertex indices in which the
tail of every nonzero-weight edge appears before its head, and if the graph
has a directed cycle it fails with the cycle error (so it never returns a
truncated order). -/
theorem claim_C2 {n : Nat} {matriz : List (List Int)} (hsq : Square n matriz) :
    (Acyclic matriz → ∃ ordem, topological_order n matriz = .ok ordem ∧
      ordem.Perm (List.range n) ∧
      ∀ u v, u < n → Edg matriz u v → Before ordem u v) ∧
    (HasCycle matriz → topological_order n matriz = .error .cycle) := by
  constructor
  · intro hac
    have hok := topo_ok_of_acyclic hsq hac
    obtain ⟨hlen, hnd, hmemlt, hresp, hperm⟩ := topo_ok_spec hsq hok
    refine ⟨_, hok, hperm, ?_⟩
    intro u v hu he
    refine hresp u v hu he ?_
    exact hperm.symm.subset (List.mem_range.2 (Edg.lt_n hsq he).2)
  · exact topo_error_of_hasCycle hsq

/-- C2 witness at scenario B's matrix. -/
theorem claim_C2_witness :
    Square 3 mB ∧
    ((Acyclic mB → ∃ ordem, topological_order 3 mB = .ok ordem ∧
      ordem.Perm (List.range 3) ∧
      ∀ u v, u < 3 → Edg mB u v → Before ordem u v) ∧
    (HasCycle mB → topological_order 3 mB = .error .cycle)) :=
  ⟨by unfold Square mB; decide, claim_C2 (by unfold Square mB; decide)⟩

/-- C4: amended distance invariant. `distancias[source] = 0` in the returned
record and it stays `0` after relaxing any vertex list whatsoever; for every
vertex other than the source the final distance equals the claim's
max-over-incoming-edges recurrence value; `⊥` (negative infinity) holds
exactly for the unreachable vertices. At the source itself the recurrence can
fail (see the counterexample), hence the exclusion. -/
theorem claim_C4 {n : Nat} {matriz : List (List Int)} {s t : Nat} {ordem : List Nat}
    (hsq : Square n matriz) (hs : s < n) (ht : t < n)
    (htopo : topological_order n matriz = .ok ordem)
    {res : LongestPathResult}
    (hres : longest_path_dag n matriz (s : Int) (t : Int) = .ok res) :
    res.distancias.getD s ⊥ = ((0 : Int) : WithBot Int) ∧
    (∀ l : List Nat, (runPass matriz l (initState n s)).dist.getD s ⊥ =
      ((0 : Int) : WithBot Int)) ∧
    (∀ v, v < n → v ≠ s →
      res.distancias.getD v ⊥ = recurVal n matriz res.distancias v) ∧
    (∀ v : Nat, res.distancias.getD v ⊥ = ⊥ ↔ ¬ ∃ p, PathTo matriz s v p) := by
  obtain ⟨res2, hres2, hord, hdist, hpred, hpreds, hbotc, hcoec⟩ :=
    result_spec hsq hs ht htopo
  rw [hres] at hres2
  injection hres2 with hres2
  subst hres2
  have hdp := final_DPInv hsq hs htopo
  have hcov := topo_cov hsq htopo
  have hac := acyclic_of_topo_ok hsq htopo
  have hinit := @DPInv_init n matriz s hs
  refine ⟨?_, ?_, ?_, ?_⟩
  · rw [hdist]
    exact hdp.pinv.odist
  · intro l
    exact (runPass_passInv hsq hac l (initState n s)
      hinit.dlen hinit.plen hinit.qlen hinit.pinv).odist
  · intro v hv hvs
    rw [hdist]
    exact dist_eq_recurVal hsq hdp hcov hvs
  · intro v
    rw [hdist]
    exact dist_bot_iff hsq hdp hcov

/-- C4 witness at scenario B. -/
theorem claim_C4_witness :
    Square 3 mB ∧ 0 < 3 ∧ 2 < 3 ∧ topological_order 3 mB = .ok [0, 1, 2] ∧
    longest_path_dag 3 mB ((0 : Nat) : Int) ((2 : Nat) : Int) = .ok resB ∧
    (resB.distancias.getD 0 ⊥ = ((0 : Int) : WithBot Int) ∧
    (∀ l : List Nat, (runPass mB l (initState 3 0)).dist.getD 0 ⊥ =
      ((0 : Int) : WithBot Int)) ∧
    (∀ v, v < 3 → v ≠ 0 →
      resB.distancias.getD v ⊥ = recurVal 3 mB resB.distancias v) ∧
    (∀ v : Nat, resB.distancias.getD v ⊥ = ⊥ ↔ ¬ ∃ p, PathTo mB 0 v p)) :=
  ⟨by unfold Square mB; decide, by decide, by decide, by rfl, by rfl,
    @claim_C4 3 mB 0 2 [0, 1, 2] (by unfold Square mB; decide) (by decide)
      (by decide) (by rfl) resB (by rfl)⟩

/-- C4 counterexample: on the one-vertex graph the result has
`distancias[0] = 0`, but the claimed recurrence value at vertex `0` — the
source — is `⊥`, so "for every vertex v" fails at the source. -/
theorem claim_C4_counterexample :
    longest_path_dag 1 [[0]] 0 0 =
      .ok (LongestPathResult.mk 1 [[0]] 0 0 [0] [((0 : Int) : WithBot Int)]
        [-1] [[]] [0] [[0]] (some 0)) ∧
    ((LongestPathResult.mk 1 [[0]] 0 0 [0] [((0 : Int) : WithBot Int)]
        [-1] [[]] [0] [[0]] (some 0)).distancias.getD 0 ⊥ =
      ((0 : Int) : WithBot Int)) ∧
    recurVal 1 [[0]]
      (LongestPathResult.mk 1 [[0]] 0 0 [0] [((0 : Int) : WithBot Int)]
        [-1] [[]] [0] [[0]] (some 0)).distancias 0 = ⊥ := by
  refine ⟨by rfl, by decide, by decide⟩

/-- C8: amended failure behaviour: on a graph whose topological sort succeeds,
`longest_path_dag` fails with the index error when the source or the target
lies outside Python's accepted range `[-n, n)`, and succeeds whenever both lie
inside it — in particular arguments in `[-n, -1]` wrap around Python-style
instead of failing, so "outside `[0, n)`" alone does not force an error (see
the counterexample). -/
theorem claim_C8 {n : Nat} {matriz : List (List Int)} {ordem : List Nat}
    (hsq : Square n matriz) (htopo : topological_order n matriz = .ok ordem)
    (origem destino : Int) :
    ((origem < -(n : Int) ∨ (n : Int) ≤ origem ∨
        destino < -(n : Int) ∨ (n : Int) ≤ destino) →
      longest_path_dag n matriz origem destino = .error .index) ∧
    ((-(n : Int) ≤ origem ∧ origem < (n : Int) ∧
        -(n : Int) ≤ destino ∧ destino < (n : Int)) →
      ∃ res, longest_path_dag n matriz origem destino = .ok res) := by
  constructor
  · intro h
    rw [longest_path_dag_after htopo]
    by_cases ho : origem < -(n : Int) ∨ (n : Int) ≤ origem
    · unfold ldagAfterTopo
      rw [pySet_invalid (by rw [List.length_replicate]; exact ho)]
    · push_neg at ho
      have hd : destino < -(n : Int) ∨ (n : Int) ≤ destino := by
        rcases h with h | h | h | h
        · omega
        · omega
        · exact Or.inl h
        · exact Or.inr h
      obtain ⟨s, hsidx, hsn⟩ := pyIdx_valid ho.1 ho.2
      rw [ldagAfterTopo_init hsidx]
      unfold ldagAfterInit
      rw [pyGet_invalid (by rw [runPass_dlen]; unfold initState; simp only
        [List.length_set, List.length_replicate]; exact hd)]
  · rintro ⟨h1, h2, h3, h4⟩
    obtain ⟨s, hsidx, hsn⟩ := pyIdx_valid h1 h2
    obtain ⟨t, htidx, htn⟩ := pyIdx_valid h3 h4
    rw [longest_path_dag_after htopo, ldagAfterTopo_init hsidx]
    have hlen : (runPass matriz ordem (initState n s)).dist.length = n := by
      rw [runPass_dlen]
      unfold initState
      simp only [List.length_set, List.length_replicate]
    rw [@ldagAfterInit_eval n matriz ordem origem destino t
      (runPass matriz ordem (initState n s)) hlen htidx htn]
    by_cases hb : (runPass matriz ordem (initState n s)).dist.getD t ⊥ = ⊥
    · rw [if_pos hb]
      exact ⟨_, rfl⟩
    · rw [if_neg hb]
      exact ⟨_, rfl⟩

/-- C8 witness: one vertex; source 5 is rejected, source 0 with target 0 is
accepted. -/
theorem claim_C8_witness :
    Square 1 [[0]] ∧ topological_order 1 [[0]] = .ok [0] ∧
    (((5 : Int) < -((1 : Nat) : Int) ∨ ((1 : Nat) : Int) ≤ 5 ∨
        (0 : Int) < -((1 : Nat) : Int) ∨ ((1 : Nat) : Int) ≤ 0) →
      longest_path_dag 1 [[0]] 5 0 = .error .index) ∧
    ((-((1 : Nat) : Int) ≤ (5 : Int) ∧ (5 : Int) < ((1 : Nat) : Int) ∧
        -((1 : Nat) : Int) ≤ (0 : Int) ∧ (0 : Int) < ((1 : Nat) : Int)) →
      ∃ res, longest_path_dag 1 [[0]] 5 0 = .ok res) :=
  ⟨by unfold Square; decide, by rfl,
    (@claim_C8 1 [[0]] [0] (by unfold Square; decide) (by rfl) 5 0).1,
    (@claim_C8 1 [[0]] [0] (by unfold Square; decide) (by rfl) 5 0).2⟩

/-- C8 counterexample: with one vertex, source `0` and target `-1` — outside
`[0, 1)` — `longest_path_dag` returns a successful result (Python's negative
indices wrap around), not an index error. -/
theorem claim_C8_counterexample :
    ¬ (0 ≤ (-1 : Int) ∧ (-1 : Int) < ((1 : Nat) : Int)) ∧
    longest_path_dag 1 [[0]] 0 (-1) =
      .ok (LongestPathResult.mk 1 [[0]] 0 (-1) [0] [((0 : Int) : WithBot Int)]
        [-1] [[]] [] [] (some 0)) :=
  ⟨by decide, by rfl⟩

/-- C1: on every graph whose topological sort succeeds, with in-range source
and target, `peso_total` is `none` exactly when no source-to-target path
exists; a returned weight is attained by some path and bounds the weight of
every path; and `caminhos_otimos` holds exactly the (embeddings of the) paths
attaining that maximum, and is empty in the no-path case. -/
theorem claim_C1 {n : Nat} {matriz : List (List Int)} {s t : Nat} {ordem : List Nat}
    (hsq : Square n matriz) (hs : s < n) (ht : t < n)
    (htopo : topological_order n matriz = .ok ordem)
    {res : LongestPathResult}
    (hres : longest_path_dag n matriz (s : Int) (t : Int) = .ok res) :
    (res.peso_total = none ↔ ¬ ∃ p, PathTo matriz s t p) ∧
    (∀ x : Int, res.peso_total = some x →
      (∃ p, PathTo matriz s t p ∧ pathWeight matriz p = x) ∧
      ∀ p, PathTo matriz s t p → pathWeight matriz p ≤ x) ∧
    (∀ x : Int, res.peso_total = some x →
      ∀ r : List Int, (r ∈ res.caminhos_otimos ↔
        ∃ p, PathTo matriz s t p ∧ pathWeight matriz p = x ∧ r = liftP p)) ∧
    (res.peso_total = none → res.caminhos_otimos = []) := by
  obtain ⟨res2, hres2, hord, hdist, hpred, hpreds, hbotc, hcoec⟩ :=
    result_spec hsq hs ht htopo
  rw [hres] at hres2
  injection hres2 with hres2
  subst hres2
  have hdp := final_DPInv hsq hs htopo
  have hcov := topo_cov hsq htopo
  by_cases hbot : (runPass matriz ordem (initState n s)).dist.getD t ⊥ = ⊥
  · obtain ⟨hpeso, hcam, hcams⟩ := hbotc hbot
    have hnop : ¬ ∃ p, PathTo matriz s t p := (dist_bot_iff hsq hdp hcov).1 hbot
    refine ⟨⟨fun _ => hnop, fun _ => hpeso⟩, ?_, ?_, fun _ => hcams⟩
    · intro x hx
      rw [hpeso] at hx
      exact absurd hx (by simp)
    · intro x hx
      rw [hpeso] at hx
      exact absurd hx (by simp)
  · obtain ⟨x, hx⟩ := exists_coe_of_ne_bot hbot
    obtain ⟨hpeso, hone, hall⟩ := hcoec x hx
    obtain ⟨q0, hq0, hq0w, _⟩ := hone
    refine ⟨⟨?_, ?_⟩, ?_, ?_, ?_⟩
    · intro h
      rw [hpeso] at h
      exact absurd h (by simp)
    · intro hno
      exact absurd ⟨q0, hq0⟩ hno
    · intro x2 hx2
      rw [hpeso] at hx2
      have hxx : x2 = x := by
        injection hx2 with h
        exact h.symm
      subst hxx
      exact ⟨⟨q0, hq0, hq0w⟩, (dist_eq_max hsq hdp hcov hx).2⟩
    · intro x2 hx2 r
      rw [hpeso] at hx2
      have hxx : x2 = x := by
        injection hx2 with h
        exact h.symm
      subst hxx
      exact hall r
    · intro h
      rw [hpeso] at h
      exact absurd h (by simp)

/-- C1 witness at scenario B. -/
theorem claim_C1_witness :
    Square 3 mB ∧ 0 < 3 ∧ 2 < 3 ∧ topological_order 3 mB = .ok [0, 1, 2] ∧
    longest_path_dag 3 mB ((0 : Nat) : Int) ((2 : Nat) : Int) = .ok resB ∧
    ((resB.peso_total = none ↔ ¬ ∃ p, PathTo mB 0 2 p) ∧
    (∀ x : Int, resB.peso_total = some x →
      (∃ p, PathTo mB 0 2 p ∧ pathWeight mB p = x) ∧
      ∀ p, PathTo mB 0 2 p → pathWeight mB p ≤ x) ∧
    (∀ x : Int, resB.peso_total = some x →
      ∀ r : List Int, (r ∈ resB.caminhos_otimos ↔
        ∃ p, PathTo mB 0 2 p ∧ pathWeight mB p = x ∧ r = liftP p)) ∧
    (resB.peso_total = none → resB.caminhos_otimos = [])) :=
  ⟨by unfold Square mB; decide, by decide, by decide, by rfl, by rfl,
    @claim_C1 3 mB 0 2 [0, 1, 2] (by unfold Square mB; decide) (by decide)
      (by decide) (by rfl) resB (by rfl)⟩

/-- C3: every entry of `caminhos_otimos` is the embedding of a path from the
source to the target (so it starts at the source and ends at the target)
whose edge-weight sum is the returned `peso_total`; when some path exists the
primary path `caminho_otimo` is a member of `caminhos_otimos`; when none
exists both are empty. -/
theorem claim_C3 {n : Nat} {matriz : List (List Int)} {s t : Nat} {ordem : List Nat}
    (hsq : Square n matriz) (hs : s < n) (ht : t < n)
    (htopo : topological_order n matriz = .ok ordem)
    {res : LongestPathResult}
    (hres : longest_path_dag n matriz (s : Int) (t : Int) = .ok res) :
    (∀ r ∈ res.caminhos_otimos, ∃ q, PathTo matriz s t q ∧ r = liftP q ∧
      r.head? = some (s : Int) ∧ r.getLast? = some (t : Int) ∧
      res.peso_total = some (pathWeight matriz q)) ∧
    ((∃ p, PathTo matriz s t p) → res.caminho_otimo ∈ res.caminhos_otimos) ∧
    (¬ (∃ p, PathTo matriz s t p) →
      res.caminho_otimo = [] ∧ res.caminhos_otimos = []) := by
  obtain ⟨res2, hres2, hord, hdist, hpred, hpreds, hbotc, hcoec⟩ :=
    result_spec hsq hs ht htopo
  rw [hres] at hres2
  injection hres2 with hres2
  subst hres2
  have hdp := final_DPInv hsq hs htopo
  have hcov := topo_cov hsq htopo
  by_cases hbot : (runPass matriz ordem (initState n s)).dist.getD t ⊥ = ⊥
  · obtain ⟨hpeso, hcam, hcams⟩ := hbotc hbot
    have hnop : ¬ ∃ p, PathTo matriz s t p := (dist_bot_iff hsq hdp hcov).1 hbot
    refine ⟨?_, fun h => absurd h hnop, fun _ => ⟨hcam, hcams⟩⟩
    intro r hr
    rw [hcams] at hr
    exact absurd hr (List.not_mem_nil r)
  · obtain ⟨x, hx⟩ := exists_coe_of_ne_bot hbot
    obtain ⟨hpeso, hone, hall⟩ := hcoec x hx
    refine ⟨?_, ?_, ?_⟩
    · intro r hr
      obtain ⟨q, hq, hqw, rfl⟩ := (hall r).1 hr
      refine ⟨q, hq, rfl, ?_, ?_, ?_⟩
      · show (q.map _).head? = _
        rw [List.head?_map, hq.head_eq]
        rfl
      · show (q.map _).getLast? = _
        rw [List.getLast?_map, hq.last_eq]
        rfl
      · rw [hqw]
        exact hpeso
    · intro _
      obtain ⟨q, hq, hqw, hcam⟩ := hone
      exact (hall res.caminho_otimo).2 ⟨q, hq, hqw, hcam⟩
    · intro hno
      obtain ⟨q0, hq0, _, _⟩ := hone
      exact absurd ⟨q0, hq0⟩ hno

/-- C3 witness at scenario B. -/
theorem claim_C3_witness :
    Square 3 mB ∧ 0 < 3 ∧ 2 < 3 ∧ topological_order 3 mB = .ok [0, 1, 2] ∧
    longest_path_dag 3 mB ((0 : Nat) : Int) ((2 : Nat) : Int) = .ok resB ∧
    ((∀ r ∈ resB.caminhos_otimos, ∃ q, PathTo mB 0 2 q ∧ r = liftP q ∧
      r.head? = some ((0 : Nat) : Int) ∧ r.getLast? = some ((2 : Nat) : Int) ∧
      resB.peso_total = some (pathWeight mB q)) ∧
    ((∃ p, PathTo mB 0 2 p) → resB.caminho_otimo ∈ resB.caminhos_otimos) ∧
    (¬ (∃ p, PathTo mB 0 2 p) →
      resB.caminho_otimo = [] ∧ resB.caminhos_otimos = [])) :=
  ⟨by unfold Square mB; decide, by decide, by decide, by rfl, by rfl,
    @claim_C3 3 mB 0 2 [0, 1, 2] (by unfold Square mB; decide) (by decide)
      (by decide) (by rfl) resB (by rfl)⟩

/-- C7: on every graph whose topological sort succeeds, with in-range source
and target, `longest_path_dag` returns a result — never an error; when the
target is unreachable the result carries `peso_total = none` and empty paths,
and `caminhos_otimos` is empty exactly when the target is unreachable. -/
theorem claim_C7 {n : Nat} {matriz : List (List Int)} {s t : Nat} {ordem : List Nat}
    (hsq : Square n matriz) (hs : s < n) (ht : t < n)
    (htopo : topological_order n matriz = .ok ordem) :
    ∃ res, longest_path_dag n matriz (s : Int) (t : Int) = .ok res ∧
      ((¬ ∃ p, PathTo matriz s t p) →
        res.peso_total = none ∧ res.caminho_otimo = [] ∧
          res.caminhos_otimos = []) ∧
      (res.caminhos_otimos = [] ↔ ¬ ∃ p, PathTo matriz s t p) := by
  obtain ⟨res, hres, hord, hdist, hpred, hpreds, hbotc, hcoec⟩ :=
    result_spec hsq hs ht htopo
  have hdp := final_DPInv hsq hs htopo
  have hcov := topo_cov hsq htopo
  refine ⟨res, hres, ?_, ?_⟩
  · intro hno
    exact hbotc ((dist_bot_iff hsq hdp hcov).2 hno)
  · by_cases hbot : (runPass matriz ordem (initState n s)).dist.getD t ⊥ = ⊥
    · obtain ⟨_, _, hcams⟩ := hbotc hbot
      exact ⟨fun _ => (dist_bot_iff hsq hdp hcov).1 hbot, fun _ => hcams⟩
    · obtain ⟨x, hx⟩ := exists_coe_of_ne_bot hbot
      obtain ⟨hpeso, hone, hall⟩ := hcoec x hx
      constructor
      · intro hemp
        obtain ⟨q, hq, hqw, _⟩ := hone
        have hmem : liftP q ∈ res.caminhos_otimos := (hall (liftP q)).2 ⟨q, hq, hqw, rfl⟩
        rw [hemp] at hmem
        exact absurd hmem (List.not_mem_nil (liftP q))
      · intro hno
        exact absurd ((dist_bot_iff hsq hdp hcov).2 hno) hbot

/-- C7 witness at scenario D (unreachable target). -/
theorem claim_C7_witness :
    Square 2 mD ∧ 0 < 2 ∧ 1 < 2 ∧ topological_order 2 mD = .ok [0, 1] ∧
    (∃ res, longest_path_dag 2 mD ((0 : Nat) : Int) ((1 : Nat) : Int) = .ok res ∧
      ((¬ ∃ p, PathTo mD 0 1 p) →
        res.peso_total = none ∧ res.caminho_otimo = [] ∧
          res.caminhos_otimos = []) ∧
      (res.caminhos_otimos = [] ↔ ¬ ∃ p, PathTo mD 0 1 p)) :=
  ⟨by unfold Square mD; decide, by decide, by decide, by rfl,
    @claim_C7 2 mD 0 1 [0, 1] (by unfold Square mD; decide) (by decide)
      (by decide) (by rfl)⟩

lemma build_empty_preds {preds : List (List Nat)} {origem : Int} {fuel : Nat}
    {u : Int} (hne : u ≠ origem) (hp : pyGetD preds [] u = []) :
    build preds origem (fuel + 1) u = [] := by
  rw [build_succ, if_neg hne, hp, List.foldl_nil]

lemma buildMemo_empty_preds {preds : List (List Nat)} {origem : Int} {fuel : Nat}
    {u : Int} (hne : u ≠ origem) (hp : pyGetD preds [] u = []) :
    (buildMemo preds origem (fuel + 1) u ([] : Memo)).1 = [] := by
  rw [buildMemo_succ]
  rw [show lookupMemo ([] : Memo) u = none from rfl]
  rw [if_neg hne, hp, List.foldl_nil]

/-- C5: one relaxation step with candidate `cand = distancias[orig] + peso`:
a strictly better candidate overwrites the distance, resets the tie list to
`[orig]` and re-seats the single witness; a tie appends `orig` to the tie
list, keeps the distances, and keeps the single witness whenever it is not
`-1`; a worse candidate changes nothing. During the actual pass the
single witness of a tying vertex is never `-1`, so the guarded re-seating
never fires: the pass coincides with the pass built on the step without it
(last conjunct). -/
theorem claim_C5 {n : Nat} {matriz : List (List Int)} {s : Nat} {ordem : List Nat}
    (hsq : Square n matriz) (hs : s < n)
    (htopo : topological_order n matriz = .ok ordem)
    (orig dest : Nat) (peso : Int) (st : DPState)
    (hd : dest < st.dist.length) (hp : dest < st.pred.length)
    (hq : dest < st.preds.length) :
    (st.dist.getD dest ⊥ < st.dist.getD orig ⊥ + (peso : Int) →
      (relaxEdge orig dest peso st).dist.getD dest ⊥ =
          st.dist.getD orig ⊥ + (peso : Int) ∧
      (relaxEdge orig dest peso st).preds.getD dest [] = [orig] ∧
      (relaxEdge orig dest peso st).pred.getD dest (-1) = (orig : Int)) ∧
    (st.dist.getD orig ⊥ + (peso : Int) = st.dist.getD dest ⊥ →
      (relaxEdge orig dest peso st).preds.getD dest [] =
          st.preds.getD dest [] ++ [orig] ∧
      (relaxEdge orig dest peso st).dist = st.dist ∧
      (st.pred.getD dest (-1) ≠ -1 →
        (relaxEdge orig dest peso st).pred = st.pred)) ∧
    (st.dist.getD orig ⊥ + (peso : Int) < st.dist.getD dest ⊥ →
      relaxEdge orig dest peso st = st) ∧
    runPassNR matriz ordem (initState n s) = runPass matriz ordem (initState n s) := by
  refine ⟨?_, ?_, ?_, ?_⟩
  · intro hlt
    rw [relaxEdge_def, if_pos hlt]
    exact ⟨getD_set_self hd, getD_set_self hq, getD_set_self hp⟩
  · intro heq
    rw [relaxEdge_def, if_neg (by rw [heq]; exact lt_irrefl _), if_pos heq]
    refine ⟨getD_set_self hq, rfl, ?_⟩
    intro hne
    show (if st.pred.getD dest (-1) = -1 then st.pred.set dest (orig : Int)
      else st.pred) = st.pred
    rw [if_neg hne]
  · intro hgt
    rw [relaxEdge_def, if_neg (not_lt.2 (le_of_lt hgt)), if_neg (ne_of_lt hgt)]
  · obtain ⟨hlen2, hnd, hmemlt, hresp, hperm⟩ := topo_ok_spec hsq htopo
    have hac := acyclic_of_topo_ok hsq htopo
    exact runPassNR_eq hsq hac hnd hresp hmemlt ordem [] (initState n s) (by simp)
      (@DPInv_init n matriz s hs)

/-- A mid-pass state used to instantiate claim C5. -/
def stW : DPState :=
  DPState.mk [((0 : Int) : WithBot Int), ((2 : Int) : WithBot Int), (⊥ : WithBot Int)]
    [-1, 0, -1] [[], [0], []]

/-- C5 witness at scenario B's matrix and a concrete mid-pass state. -/
theorem claim_C5_witness :
    Square 3 mB ∧ 0 < 3 ∧ topological_order 3 mB = .ok [0, 1, 2] ∧
    1 < stW.dist.length ∧ 1 < stW.pred.length ∧ 1 < stW.preds.length ∧
    ((stW.dist.getD 1 ⊥ < stW.dist.getD 0 ⊥ + ((7 : Int) : Int) →
      (relaxEdge 0 1 7 stW).dist.getD 1 ⊥ = stW.dist.getD 0 ⊥ + ((7 : Int) : Int) ∧
      (relaxEdge 0 1 7 stW).preds.getD 1 [] = [0] ∧
      (relaxEdge 0 1 7 stW).pred.getD 1 (-1) = ((0 : Nat) : Int)) ∧
    (stW.dist.getD 0 ⊥ + ((7 : Int) : Int) = stW.dist.getD 1 ⊥ →
      (relaxEdge 0 1 7 stW).preds.getD 1 [] = stW.preds.getD 1 [] ++ [0] ∧
      (relaxEdge 0 1 7 stW).dist = stW.dist ∧
      (stW.pred.getD 1 (-1) ≠ -1 → (relaxEdge 0 1 7 stW).pred = stW.pred)) ∧
    (stW.dist.getD 0 ⊥ + ((7 : Int) : Int) < stW.dist.getD 1 ⊥ →
      relaxEdge 0 1 7 stW = stW) ∧
    runPassNR mB [0, 1, 2] (initState 3 0) = runPass mB [0, 1, 2] (initState 3 0)) :=
  ⟨by unfold Square mB; decide, by decide, by rfl, by decide, by decide, by decide,
    @claim_C5 3 mB 0 [0, 1, 2] (by unfold Square mB; decide) (by decide) (by rfl)
      0 1 7 stW (by decide) (by decide) (by decide)⟩

/-- C6: a zero matrix entry behaves as "no edge" in every loop that reads the
matrix: the in-degree count skips it, the Kahn decrement row skips it, and the
relaxation row skips it — and in the spec's scenario C (edges `0→1` and `0→2`
of weight 5 plus a zero `1→2` entry) the returned record reaches weight 5
through the direct edge only: `caminhos_otimos = [[0, 2]]`, with no path
through vertex 1. -/
theorem claim_C6 :
    (∀ (j : Nat) (rest g : List Int),
      countRow j ((0 : Int) :: rest) g = countRow (j + 1) rest g) ∧
    (∀ (j : Nat) (rest grau : List Int) (fila : List Nat),
      decRow j ((0 : Int) :: rest) grau fila = decRow (j + 1) rest grau fila) ∧
    (∀ (orig j : Nat) (rest : List Int) (st : DPState),
      relaxRow orig j ((0 : Int) :: rest) st = relaxRow orig (j + 1) rest st) ∧
    longest_path_dag 3 [[0, 5, 5], [0, 0, 0], [0, 0, 0]] 0 2 =
      .ok (LongestPathResult.mk 3 [[0, 5, 5], [0, 0, 0], [0, 0, 0]] 0 2 [0, 1, 2]
        [((0 : Int) : WithBot Int), ((5 : Int) : WithBot Int),
          ((5 : Int) : WithBot Int)]
        [-1, 0, 0] [[], [0], [0]] [0, 2] [[0, 2]] (some 5)) := by
  refine ⟨?_, ?_, ?_, by rfl⟩
  · intro j rest g
    rw [countRow_cons, if_neg (fun h => h rfl)]
  · intro j rest grau fila
    rw [decRow_cons, if_neg (fun h => h rfl)]
  · intro orig j rest st
    rw [relaxRow_cons, if_neg (fun h => h rfl)]

/-- C9: `longest_path_dag` is a pure function of its four arguments — two
successful invocations on the same input yield the same record — and the
memoised reconstruction always starts from the empty cache built inside the
call, computing exactly the member set of the cache-free recursion `build`:
no state crosses invocations. -/
theorem claim_C9 {n : Nat} {matriz : List (List Int)} {s t : Nat} {ordem : List Nat}
    (hsq : Square n matriz) (hs : s < n) (ht : t < n)
    (htopo : topological_order n matriz = .ok ordem) :
    (∀ res1 res2, longest_path_dag n matriz (s : Int) (t : Int) = .ok res1 →
      longest_path_dag n matriz (s : Int) (t : Int) = .ok res2 → res1 = res2) ∧
    (∀ res, longest_path_dag n matriz (s : Int) (t : Int) = .ok res →
      res.caminhos_otimos =
        (buildMemo (runPass matriz ordem (initState n s)).preds (s : Int) (n + 1)
          (t : Int) ([] : Memo)).1 ∧
      ∀ r, (r ∈ res.caminhos_otimos ↔
        r ∈ build (runPass matriz ordem (initState n s)).preds (s : Int) (n + 1)
          (t : Int))) := by
  have hdp := final_DPInv hsq hs htopo
  obtain ⟨hlen, hnd, hmemlt, hresp, hperm⟩ := topo_ok_spec hsq htopo
  have hac := acyclic_of_topo_ok hsq htopo
  have hcov := topo_cov hsq htopo
  constructor
  · intro res1 res2 h1 h2
    rw [h1] at h2
    injection h2
  · intro res hres
    have hmain : longest_path_dag n matriz (s : Int) (t : Int) =
        ldagAfterInit n matriz (s : Int) (t : Int) ordem
          (runPass matriz ordem (initState n s)) := by
      rw [longest_path_dag_after htopo, ldagAfterTopo_init (pyIdx_coe hs)]
    rw [@ldagAfterInit_eval n matriz ordem (s : Int) (t : Int) t
      (runPass matriz ordem (initState n s)) hdp.dlen (pyIdx_coe ht) ht] at hmain
    by_cases hbot : (runPass matriz ordem (initState n s)).dist.getD t ⊥ = ⊥
    · rw [if_pos hbot] at hmain
      rw [hres] at hmain
      injection hmain with hmain
      subst hmain
      have hts : t ≠ s := by
        intro h
        rw [h, hdp.pinv.odist] at hbot
        exact WithBot.coe_ne_bot hbot
      have hne : (t : Int) ≠ (s : Int) := by exact_mod_cast hts
      have hpg : pyGetD (runPass matriz ordem (initState n s)).preds [] (t : Int) =
          [] := by
        rw [pyGetD_coe (by rw [hdp.qlen]; exact ht)]
        exact (hdp.pred_bot t ht hts hbot).2
      refine ⟨(buildMemo_empty_preds hne hpg).symm, ?_⟩
      intro r
      rw [build_empty_preds hne hpg]
    · rw [if_neg hbot] at hmain
      rw [hres] at hmain
      injection hmain with hmain
      subst hmain
      refine ⟨rfl, ?_⟩
      intro r
      obtain ⟨i, hilen, hival⟩ := mem_index (hcov t ht)
      have hsm0 : SoundMemo matriz s (runPass matriz ordem (initState n s)) [] :=
        fun kv hkv => absurd hkv (List.not_mem_nil kv)
      obtain ⟨_, hchar⟩ := buildMemo_spec hsq hac hnd hresp hmemlt hcov hdp i t hival
        hbot (n + 1) (by omega) [] hsm0
      obtain ⟨x, hx⟩ := exists_coe_of_ne_bot hbot
      have hbuild := build_spec hsq hac hnd hresp hmemlt hcov hdp i t hival x hx
        (n + 1) (by omega) r
      rw [hchar r, hbuild]
      constructor
      · rintro ⟨q, hq2, hqd, rfl⟩
        refine ⟨q, hq2, ?_, rfl⟩
        rw [hx] at hqd
        exact_mod_cast hqd
      · rintro ⟨q, hq2, hqw, rfl⟩
        exact ⟨q, hq2, by rw [hx, hqw], rfl⟩

/-- C9 witness at scenario B. -/
theorem claim_C9_witness :
    Square 3 mB ∧ 0 < 3 ∧ 2 < 3 ∧ topological_order 3 mB = .ok [0, 1, 2] ∧
    ((∀ res1 res2, longest_path_dag 3 mB ((0 : Nat) : Int) ((2 : Nat) : Int) = .ok res1 →
      longest_path_dag 3 mB ((0 : Nat) : Int) ((2 : Nat) : Int) = .ok res2 →
        res1 = res2) ∧
    (∀ res, longest_path_dag 3 mB ((0 : Nat) : Int) ((2 : Nat) : Int) = .ok res →
      res.caminhos_otimos =
        (buildMemo (runPass mB [0, 1, 2] (initState 3 0)).preds ((0 : Nat) : Int)
          (3 + 1) ((2 : Nat) : Int) ([] : Memo)).1 ∧
      ∀ r, (r ∈ res.caminhos_otimos ↔
        r ∈ build (runPass mB [0, 1, 2] (initState 3 0)).preds ((0 : Nat) : Int)
          (3 + 1) ((2 : Nat) : Int)))) :=
  ⟨by unfold Square mB; decide, by decide, by decide, by rfl,
    @claim_C9 3 mB 0 2 [0, 1, 2] (by unfold Square mB; decide) (by decide)
      (by decide) (by rfl)⟩

/-- C10: in the returned record the single-witness `predecessor[v]` is `-1`
exactly when `v` is the source or `v` is unreachable; and the relaxation pass
coincides with the pass whose tie branch lacks the guarded
`predecessor[dest] = orig` re-assignment — that line never takes effect. -/
theorem claim_C10 {n : Nat} {matriz : List (List Int)} {s t : Nat} {ordem : List Nat}
    (hsq : Square n matriz) (hs : s < n) (ht : t < n)
    (htopo : topological_order n matriz = .ok ordem)
    {res : LongestPathResult}
    (hres : longest_path_dag n matriz (s : Int) (t : Int) = .ok res) :
    (∀ v, v < n → (res.predecessor.getD v (-1) = -1 ↔
      (v = s ∨ res.distancias.getD v ⊥ = ⊥))) ∧
    runPassNR matriz ordem (initState n s) = runPass matriz ordem (initState n s) := by
  obtain ⟨res2, hres2, hord, hdist, hpred, hpreds, hbotc, hcoec⟩ :=
    result_spec hsq hs ht htopo
  rw [hres] at hres2
  injection hres2 with hres2
  subst hres2
  have hdp := final_DPInv hsq hs htopo
  obtain ⟨hlen, hnd, hmemlt, hresp, hperm⟩ := topo_ok_spec hsq htopo
  have hac := acyclic_of_topo_ok hsq htopo
  constructor
  · intro v hv
    rw [hpred, hdist]
    exact pred_neg_one_iff hdp hv
  · exact runPassNR_eq hsq hac hnd hresp hmemlt ordem [] (initState n s) (by simp)
      (@DPInv_init n matriz s hs)

/-- C10 witness at scenario B. -/
theorem claim_C10_witness :
    Square 3 mB ∧ 0 < 3 ∧ 2 < 3 ∧ topological_order 3 mB = .ok [0, 1, 2] ∧
    longest_path_dag 3 mB ((0 : Nat) : Int) ((2 : Nat) : Int) = .ok resB ∧
    ((∀ v, v < 3 → (resB.predecessor.getD v (-1) = -1 ↔
      (v = 0 ∨ resB.distancias.getD v ⊥ = ⊥))) ∧
    runPassNR mB [0, 1, 2] (initState 3 0) = runPass mB [0, 1, 2] (initState 3 0)) :=
  ⟨by unfold Square mB; decide, by decide, by decide, by rfl, by rfl,
    @claim_C10 3 mB 0 2 [0, 1, 2] (by unfold Square mB; decide) (by decide)
      (by decide) (by rfl) resB (by rfl)⟩

end N1
